import Mathlib

/-!
# smallsh: a verification development

Shallow embedding of `src/main.c` (the small shell) and theorems about it.

Conventions of the embedding:

* a C string is the list of its characters before the terminating NUL
  (`List Char`); a `char*` that may be `NULL` is an `Option (List Char)`;
* `int` values that never leave the range of the machine type on any line the
  shell can read are `Nat` or `Int`;
* results of system calls (`fork`, `waitpid`, `open`, `dup2`, `getpid`) are
  explicit parameters of the functions that make the calls;
* text written to standard output is returned as a list of strings.
-/

namespace Smallsh

/-! ## Constants -/

/-- `#define IN "<"` -/
def IN : List Char := ['<']

/-- `#define OUT ">"` -/
def OUT : List Char := ['>']

/-- `#define BKGRD "&"` -/
def BKGRD : List Char := ['&']

/-- `#define COMMENT "#"` -/
def COMMENT : List Char := ['#']

/-- `#define EXP "$$"` -/
def EXP : List Char := ['$', '$']

/-- `#define MAX_ARGS 512` -/
def MAX_ARGS : Nat := 512

/-- `#define MAX_ARG_LENGTH 2048` -/
def MAX_ARG_LENGTH : Nat := 2048

/-! ## The command structure -/

/-- The `commandStruct` of the source.  `arguments` holds the entries of the
`arguments` array before its terminating `NULL` entry, so the index at which
the code writes that `NULL` is `arguments.length`.  The array has `MAX_ARGS`
slots and is followed in the struct by `inputRedir`, `outputRedir` and
`bkgrdInd`, so a command exists as a value of this type only while
`arguments.length` is below `MAX_ARGS`; `processInput` reports a run that
stores further as out of bounds. -/
structure commandStruct where
  command : List Char
  arguments : List (List Char)
  inputRedir : Option (List Char)
  outputRedir : Option (List Char)
  bkgrdInd : Bool
  deriving DecidableEq, Repr

/-! ## Tokenising with `strtok_r` -/

/-- Membership in the delimiter string `" \n"` passed to `strtok_r`. -/
def isDelim (c : Char) : Bool := c == ' ' || c == '\n'

/-- The C library's `strtok_r(s, " \n", &save)` on the string `s` (for a call
with a `NULL` first argument, `s` is the saved pointer): skip leading
delimiters (`strspn`); at the end of the string return `NULL` and leave the
saved pointer at the end; otherwise the token is the run up to the next
delimiter (`strcspn`), and the saved pointer is one past that delimiter, or at
the end of the string when the token ends the string.  The result is the token
and the new saved pointer. -/
def strtok_r (s : List Char) : Option (List Char) × List Char :=
  match s.dropWhile isDelim with
  | [] => (none, [])
  | c :: cs =>
    (some ((c :: cs).takeWhile (fun x => !isDelim x)),
     ((c :: cs).dropWhile (fun x => !isDelim x)).tail)

/-- The tokens of a line: the maximal runs of characters other than the
delimiters, in order.  `cur` is the run being read, reversed. -/
def tokensAux : List Char → List Char → List (List Char)
  | [], cur => if cur = [] then [] else [cur.reverse]
  | c :: cs, cur =>
    if isDelim c then
      (if cur = [] then tokensAux cs [] else cur.reverse :: tokensAux cs [])
    else tokensAux cs (c :: cur)

/-- The tokens of a line: the maximal runs of characters other than space and
newline, in order. -/
def tokens (s : List Char) : List (List Char) := tokensAux s []

/-- Whether a token is exactly one of the three operators `<`, `>`, `&`. -/
def isOperator (t : List Char) : Bool := t == IN || t == OUT || t == BKGRD

/-! ## The command parser -/

/-- The loop of lines 488-496 of `processInput`: while the current token `tk`
is not `NULL` and is none of `<`, `>`, `&`, store it in the next slot of the
arguments array and read the next token.  Returns the arguments stored, the
token at which the loop stopped and the saved pointer of `strtok_r`. -/
def argLoop (tk : Option (List Char)) (tkPtr : List Char)
    (arguments : List (List Char)) :
    List (List Char) × Option (List Char) × List Char :=
  match tk with
  | none => (arguments, none, tkPtr)
  | some t =>
    if t ≠ IN ∧ t ≠ OUT ∧ t ≠ BKGRD then
      argLoop (strtok_r tkPtr).1 (strtok_r tkPtr).2 (arguments ++ [t])
    else (arguments, some t, tkPtr)
termination_by tkPtr.length + (if tk.isSome then 1 else 0)
decreasing_by
  have key : ∀ s : List Char,
      (strtok_r s).2.length + (if (strtok_r s).1.isSome then 1 else 0) ≤ s.length := by
    intro s
    have h1 : (s.dropWhile isDelim).length ≤ s.length :=
      (List.dropWhile_sublist isDelim).length_le
    unfold strtok_r
    cases h : s.dropWhile isDelim with
    | nil => simp
    | cons c cs =>
      have h2 : (((c :: cs).dropWhile (fun x => !isDelim x)).tail).length + 1
          ≤ (c :: cs).length := by
        have h3 := (List.dropWhile_sublist (l := c :: cs) (fun x => !isDelim x)).length_le
        rw [List.length_tail]
        simp only [List.length_cons] at h3 ⊢
        omega
      rw [h] at h1
      simp only [Option.isSome_some, if_true]
      omega
  have := key tkPtr
  simp only [Option.isSome_some, if_true]
  omega

/-- What one pass through the body of the `do ... while` loop of lines 504-543
leaves behind, before the `strtok_r` call that ends the body. -/
inductive OpStep where
  /-- The body reached its end with this command and saved pointer. -/
  | cont (cmd : commandStruct) (tkPtr : List Char)
  /-- The body left the loop through `break`, having printed `msg`. -/
  | brk (cmd : commandStruct) (msg : String)

/-- The body of the `do ... while` loop of `processInput` on the current token:
`<` and `>` read the next token as the redirection path (or print a syntax
error and `break` when there is none), `&` sets the background flag, and
any other token, or no token, changes nothing. -/
def opBody (cmd : commandStruct) (tk : Option (List Char)) (tkPtr : List Char) : OpStep :=
  match tk with
  | none => .cont cmd tkPtr
  | some t =>
    if t = IN then
      match strtok_r tkPtr with
      | (some p, tkPtr1) => .cont { cmd with inputRedir := some p } tkPtr1
      | (none, _) => .brk cmd "Syntax error after \"<\" \n"
    else if t = OUT then
      match strtok_r tkPtr with
      | (some p, tkPtr1) => .cont { cmd with outputRedir := some p } tkPtr1
      | (none, _) => .brk cmd "Syntax error after \">\"\n"
    else if t = BKGRD then
      .cont { cmd with bkgrdInd := true } tkPtr
    else .cont cmd tkPtr

/-- The `do ... while (tk != NULL)` loop of lines 504-543: run the body, read
the next token, and repeat while there is one.  Returns the command and the
messages printed. -/
def opLoop (cmd : commandStruct) (tk : Option (List Char)) (tkPtr : List Char) :
    commandStruct × List String :=
  match hb : opBody cmd tk tkPtr with
  | .brk cmd1 msg => (cmd1, [msg])
  | .cont cmd1 tkPtr1 =>
    match hs : strtok_r tkPtr1 with
    | (some t1, tkPtr2) => opLoop cmd1 (some t1) tkPtr2
    | (none, _) => (cmd1, [])
termination_by tkPtr.length
decreasing_by
  have key : ∀ s : List Char,
      (strtok_r s).2.length + (if (strtok_r s).1.isSome then 1 else 0) ≤ s.length := by
    intro s
    have h1 : (s.dropWhile isDelim).length ≤ s.length :=
      (List.dropWhile_sublist isDelim).length_le
    unfold strtok_r
    cases h : s.dropWhile isDelim with
    | nil => simp
    | cons c cs =>
      have h2 : (((c :: cs).dropWhile (fun x => !isDelim x)).tail).length + 1
          ≤ (c :: cs).length := by
        have h3 := (List.dropWhile_sublist (l := c :: cs) (fun x => !isDelim x)).length_le
        rw [List.length_tail]
        simp only [List.length_cons] at h3 ⊢
        omega
      rw [h] at h1
      simp only [Option.isSome_some, if_true]
      omega
  have hle : tkPtr1.length ≤ tkPtr.length := by
    have k := key tkPtr
    unfold opBody at hb
    split at hb
    · cases hb; exact le_refl _
    · split at hb
      · split at hb
        · rename_i heq
          rw [heq] at k
          cases hb
          simp only at k
          omega
        · cases hb
      · split at hb
        · split at hb
          · rename_i heq
            rw [heq] at k
            cases hb
            simp only at k
            omega
          · cases hb
        · split at hb <;> (cases hb; exact le_refl _)
  have k2 := key tkPtr1
  rw [hs] at k2
  simp only [Option.isSome_some, if_true] at k2
  omega

/-- The function `processInput` together with the text it prints.  `fresh` is
the content of the block that `malloc(sizeof(commandStruct))` returns: `malloc`
does not clear memory, and the code assigns `bkgrdInd`, `command` and the used
part of `arguments` but never initialises `inputRedir` and `outputRedir`, so
these two keep the block's content until a `<` or `>` clause overwrites them.
The result is `none` for the `NULL` return (line without a token). -/
def processInputRun (fresh : commandStruct) (inputString : List Char) :
    Option commandStruct × List String :=
  match strtok_r inputString with
  | (none, _) => (none, [])
  | (some tk, tkPtr) =>
    let currentCommand : commandStruct :=
      { fresh with bkgrdInd := false, command := tk, arguments := [tk] }
    let r := argLoop (strtok_r tkPtr).1 (strtok_r tkPtr).2 currentCommand.arguments
    let out := opLoop { currentCommand with arguments := r.1 } r.2.1 r.2.2
    (some out.1, out.2)

/-- The command as the stores of `processInput` build it, or `none` when the
function returns `NULL`: `arguments` lists the entries the code stores at the
indices 0, 1, 2, ... in order, whatever the index, so the list tells how far
the code writes; whether these stores stay inside the array is decided in
`processInput`. -/
def storedCommand (fresh : commandStruct) (inputString : List Char) : Option commandStruct :=
  (processInputRun fresh inputString).1

/-- How a call of `processInput` ends. -/
inductive Parsed where
  /-- The function returned `NULL`: the line has no token. -/
  | null
  /-- The function returned this command, every store having stayed inside the
  array `arguments`. -/
  | command (c : commandStruct)
  /-- The function stored at `arguments[index]` with `index` not below
  `MAX_ARGS`, outside the array; `index` is the first such index.  What the code
  does from there on (the store lands in the fields that follow the array and
  then past the allocated block) is not defined by the source. -/
  | outOfBounds (index : Nat)
  deriving DecidableEq, Repr

/-- The function `processInput`.  The code stores the entries at the indices
0, 1, 2, ... of `arguments[MAX_ARGS]` and the terminating `NULL` at the next
index, and compares no index with `MAX_ARGS` (lines 488-500); the last index
written is the number of entries.  When that number is below `MAX_ARGS` every
store is inside the array and the function returns the command built; when it
is not, the code has stored at index `MAX_ARGS`, outside the array. -/
def processInput (fresh : commandStruct) (inputString : List Char) : Parsed :=
  match storedCommand fresh inputString with
  | none => .null
  | some c => if c.arguments.length < MAX_ARGS then .command c else .outOfBounds MAX_ARGS

/-- The name of the command returned, when a command is returned. -/
def Parsed.commandName : Parsed → Option (List Char)
  | .command c => some c.command
  | _ => none

/-! ## The parser on a list of tokens (used to state and prove the parser's properties) -/

/-- The effect of the operator loop on the tokens from the first operator on:
`<` and `>` take the next token as path (and stop when there is none), `&`
sets the background flag, any other token is skipped. -/
def opTokens (cmd : commandStruct) : List (List Char) → commandStruct
  | [] => cmd
  | t :: rest =>
    if t = IN then
      match rest with
      | [] => cmd
      | p :: rest1 => opTokens { cmd with inputRedir := some p } rest1
    else if t = OUT then
      match rest with
      | [] => cmd
      | p :: rest1 => opTokens { cmd with outputRedir := some p } rest1
    else if t = BKGRD then opTokens { cmd with bkgrdInd := true } rest
    else opTokens cmd rest

/-- One operator clause of a command line: `< p`, `> q` or `&`. -/
inductive Clause where
  | input (p : List Char)
  | output (q : List Char)
  | background
  deriving DecidableEq, Repr

/-- The tokens that spell a clause. -/
def Clause.toks : Clause → List (List Char)
  | .input p => [IN, p]
  | .output q => [OUT, q]
  | .background => [BKGRD]

/-- Which of the three operators a clause uses: 0 for `<`, 1 for `>`, 2 for `&`. -/
def Clause.kind : Clause → Nat
  | .input _ => 0
  | .output _ => 1
  | .background => 2

/-- The tokens of a sequence of clauses, in order. -/
def clauseTokens : List Clause → List (List Char)
  | [] => []
  | c :: cs => c.toks ++ clauseTokens cs

/-- What a clause does to the command being built. -/
def Clause.apply (cmd : commandStruct) : Clause → commandStruct
  | .input p => { cmd with inputRedir := some p }
  | .output q => { cmd with outputRedir := some q }
  | .background => { cmd with bkgrdInd := true }

/-- A block of memory whose redirection fields are null pointers. -/
def zeroedBlock : commandStruct :=
  { command := [], arguments := [], inputRedir := none, outputRedir := none, bkgrdInd := false }

/-- A block of memory left over from earlier use: its redirection fields hold
old pointers. -/
def staleBlock : commandStruct :=
  { command := [], arguments := [], inputRedir := some "old.txt".toList,
    outputRedir := some "old.txt".toList, bkgrdInd := true }

/-- The tokens still to be read, `ts`, as the parser holds them: the current
token `tk` (the last result of `strtok_r`) and the saved pointer `tkPtr`. -/
def TokenStream (tk : Option (List Char)) (tkPtr : List Char) (ts : List (List Char)) : Prop :=
  match ts with
  | [] => tk = none ∧ tokens tkPtr = []
  | t :: rest => tk = some t ∧ tokens tkPtr = rest

/-! ## The input expander -/

/-- The C library's `strstr(haystack, needle)`: the offset of the first
occurrence of `needle` in `haystack`, or `none` for `NULL`. -/
def strstr (haystack needle : List Char) : Option Nat :=
  match haystack with
  | [] => if needle = [] then some 0 else none
  | c :: cs =>
    if needle.isPrefixOf (c :: cs) then some 0
    else (strstr cs needle).map (fun k => k + 1)

/-- The string `pidString` of `expandInput`: `snprintf(pidString, 12, "%ld", processID)`
writes at most 11 characters of the decimal form of the process id. -/
def pidString (processID : Nat) : List Char :=
  (Nat.toDigits 10 processID).take (12 - 1)

/-- The counting pass of `expandInput` (lines 314-322): `i` runs over the
indices of `inputString`; where the text at `i` starts with `$$`
(`strstr(&inputString[i], EXP) == &inputString[i]`) the counter goes up and
`i` advances by two, otherwise by one.  Returns the final `i` and
`symbolCounter`. -/
def countLoop (inputString : List Char) (i symbolCounter : Nat) : Nat × Nat :=
  if i < inputString.length then
    if strstr (inputString.drop i) EXP = some 0 then
      countLoop inputString (i + 1 + 1) (symbolCounter + 1)
    else countLoop inputString (i + 1) symbolCounter
  else (i, symbolCounter)
termination_by inputString.length - i
decreasing_by all_goals omega

/-- The value `newStringLength` of `expandInput` (line 327):
`i + ((int)pidLength - 2) * symbolCounter` after the counting pass.  The buffer
allocated for the result has `newStringLength + 1` bytes. -/
def newStringLength (processID : Nat) (inputString : List Char) : Int :=
  ((countLoop inputString 0 0).1 : Int)
    + (((pidString processID).length : Int) - 2) * ((countLoop inputString 0 0).2 : Int)

/-- The copying pass of `expandInput` (lines 335-351): `ptrCur` is the rest of
the input, `expandedString` the characters written so far (so the index `i` of
the source is its length).  Where the rest starts with `$$` the pid string is
copied and `ptrCur` advances by two, otherwise one character is copied. -/
def copyLoop (pid : List Char) (ptrCur : List Char) (expandedString : List Char) : List Char :=
  match ptrCur with
  | [] => expandedString
  | c :: rest =>
    if strstr (c :: rest) EXP = some 0 then
      copyLoop pid rest.tail (expandedString ++ pid)
    else copyLoop pid rest (expandedString ++ [c])
termination_by ptrCur.length
decreasing_by
  · simp only [List.length_tail, List.length_cons]; omega
  · simp only [List.length_cons]; omega

/-- The function `expandInput` for the process id `processID`.  The copying
pass writes at increasing indices of a zero-filled buffer of
`newStringLength + 1` bytes, so every write stays inside the buffer and the
result is a terminated string exactly when the number of characters written is
at most `newStringLength`; otherwise the code writes past its allocation and
the result is `none`. -/
def expandInput (processID : Nat) (inputString : List Char) : Option (List Char) :=
  let written := copyLoop (pidString processID) inputString []
  if (written.length : Int) ≤ newStringLength processID inputString then some written
  else none

/-- The expansion as the specification words it: scanning left to right, each
`$$` is replaced by `pid`, and every other character is copied. -/
def expandSpec (pid : List Char) : List Char → List Char
  | [] => []
  | [c] => [c]
  | c :: d :: rest =>
    if c = '$' ∧ d = '$' then pid ++ expandSpec pid rest
    else c :: expandSpec pid (d :: rest)

/-- The number of non-overlapping occurrences of `$$` found scanning left to
right. -/
def occurrences : List Char → Nat
  | [] => 0
  | [_] => 0
  | c :: d :: rest =>
    if c = '$' ∧ d = '$' then occurrences rest + 1
    else occurrences (d :: rest)

/-! ## Wait statuses and the status reports -/

/-- Modelled from the spec: the macro `WIFEXITED` of `<sys/wait.h>`, which the
repository uses and does not define.  With the POSIX/Linux encoding (low 7 bits
the terminating signal, bits 8-15 the exit code) it is `(status & 0x7f) == 0`. -/
def WIFEXITED (status : Int) : Bool := status % 128 == 0

/-- Modelled from the spec: the macro `WEXITSTATUS` of `<sys/wait.h>`,
`(status & 0xff00) >> 8`. -/
def WEXITSTATUS (status : Int) : Int := (status / 256) % 256

/-- Modelled from the spec: the macro `WTERMSIG` of `<sys/wait.h>`,
`status & 0x7f`. -/
def WTERMSIG (status : Int) : Int := status % 128

/-- The function `statusProcess`: the line the `status` built-in prints for the
stored wait status. -/
def statusProcess (lastStatus : Int) : String :=
  if WIFEXITED lastStatus then "exit value " ++ toString (WEXITSTATUS lastStatus) ++ "\n"
  else "terminated by signal " ++ toString (WTERMSIG lastStatus) ++ "\n"

/-- The function `statusBackground`: the completion notice of a background
process. -/
def statusBackground (childStatus : Int) (childPid : Int) : String :=
  if WIFEXITED childStatus then
    "background pid " ++ toString childPid ++ " is done: exit value "
      ++ toString (WEXITSTATUS childStatus) ++ "\n"
  else
    "background pid " ++ toString childPid ++ " is done: terminated by signal "
      ++ toString (WTERMSIG childStatus) ++ "\n"

/-! ## The background registry -/

/-- The `while` loop of `processCheck` (lines 260-277) from the node
`currentNode` on: unlink the first node that holds `processId` and stop; a
list without such a node is left as it is. -/
def unlinkWalk (processId : Int) : List Int → List Int
  | [] => []
  | process :: next =>
    if process = processId then next
    else process :: unlinkWalk processId next

/-- The function `processCheck` on the list of background process ids
(`listHead->next` onwards).  `processId` and `processStatus` are what
`waitpid(-1, &processStatus, WNOHANG)` returns and stores; the call is made
only when the list is not empty.  Returns the list afterwards and the text
printed. -/
def processCheck (listHead : List Int) (processId processStatus : Int) :
    List Int × List String :=
  match listHead with
  | [] => ([], [])
  | process :: next =>
    if processId > 0 then
      let out := [statusBackground processStatus processId]
      if process = processId then
        -- the first node is the match: it is unlinked only if it has a successor
        match next with
        | [] => (process :: next, out)
        | _ :: _ => (next, out)
      else
        -- the loop starts at the first node, which does not match, and moves on
        (process :: unlinkWalk processId next, out)
    else (process :: next, [])

/-! ## The state of the shell and the mode signal -/

/-- The variables of the shell that outlive one command: the global
`foregroundOnlyMode`, the integers behind `childStatus` and
`lastForegroundPid` of `main`, and the list at `pidHead`. -/
structure ShellState where
  foregroundOnlyMode : Bool
  childStatus : Int
  lastForegroundPid : Int
  pidList : List Int
  deriving DecidableEq, Repr

/-- The state in which `main` enters its loop: the mode is off and the list is
empty; the two integers are allocated with `malloc` and not initialised, so
their first values are parameters. -/
def initialState (childStatus lastForegroundPid : Int) : ShellState :=
  { foregroundOnlyMode := false, childStatus := childStatus,
    lastForegroundPid := lastForegroundPid, pidList := [] }

/-- The handler `handleSIGTSTP`: flips `foregroundOnlyMode` and writes the
notice of the new mode.  Returns the new state and the text written. -/
def handleSIGTSTP (st : ShellState) : ShellState × String :=
  if st.foregroundOnlyMode = false then
    ({ st with foregroundOnlyMode := true },
      "\nEntering foreground-only mode (& is now ignored)\n")
  else
    ({ st with foregroundOnlyMode := false }, "\nExiting foreground-only mode\n")

/-- The state after `n` deliveries of the signal, each handled by
`handleSIGTSTP`. -/
def deliverSIGTSTP : Nat → ShellState → ShellState
  | 0, st => st
  | n + 1, st => deliverSIGTSTP n (handleSIGTSTP st).1

/-! ## File descriptors of the child -/

/-- The two ways `executeAsChild` opens a file: `O_RDONLY`, and
`O_WRONLY | O_CREAT | O_TRUNC` with mode `0760`. -/
inductive OpenFlags where
  | rdonly
  | wronlyCreatTrunc
  deriving DecidableEq, Repr

/-- An open file: the path it was opened from and how. -/
structure OpenFile where
  path : List Char
  flags : OpenFlags
  deriving DecidableEq, Repr

/-- The file descriptor table of a process: entry `fd` is the open file that
descriptor `fd` refers to, if it is open. -/
abbrev FdTable := List (Option OpenFile)

/-- The open file behind a descriptor. -/
def fdGet : FdTable → Nat → Option OpenFile
  | [], _ => none
  | e :: _, 0 => e
  | _ :: t, n + 1 => fdGet t n

/-- The table with descriptor `fd` referring to `f`. -/
def fdSet : FdTable → Nat → Option OpenFile → FdTable
  | [], 0, f => [f]
  | [], n + 1, f => none :: fdSet [] n f
  | _ :: t, 0, f => f :: t
  | e :: t, n + 1, f => e :: fdSet t n f

/-- The lowest descriptor that is not open, which is the one a successful
`open` returns. -/
def lowestFree : FdTable → Nat
  | [] => 0
  | none :: _ => 0
  | some _ :: t => lowestFree t + 1

/-- The path of the null device. -/
def devNull : List Char := "/dev/null".toList

/-- Whether each system call of the child succeeds: the `open` and `dup2` of the
input redirection and those of the output redirection. -/
structure ChildSys where
  openInOk : Bool
  dupInOk : Bool
  openOutOk : Bool
  dupOutOk : Bool
  deriving DecidableEq, Repr

/-- How the child branch of `executeAsChild` ends. -/
inductive ChildEnd where
  /-- The child called `exit(code)` after printing `out`. -/
  | exited (code : Nat) (out : List String)
  /-- The child reached `execvp(command, arguments)` with the descriptor table
  `fds`; `sigintDefault` tells whether it restored the default action of
  `SIGINT`, and `bkgrdInd` is the background flag it used. -/
  | execvp (command : List Char) (arguments : List (List Char)) (fds : FdTable)
      (sigintDefault : Bool) (bkgrdInd : Bool)
  deriving DecidableEq, Repr

/-- The text `printf("%s", p)` prints for a pointer that may be `NULL`. -/
def showPath (p : Option (List Char)) : String :=
  match p with
  | some path => String.mk path
  | none => "(null)"

/-- The input redirection of the child (lines 830-859): when there is an input
path or the command runs in the background, open the path, or `/dev/null` when
there is none, and make descriptor 0 refer to it.  Returns the new table, or
the `exit` the child makes. -/
def redirectInput (cmd : commandStruct) (fds : FdTable) (sys : ChildSys) :
    Except ChildEnd FdTable :=
  if cmd.inputRedir ≠ none ∨ cmd.bkgrdInd = true then
    let path := match cmd.inputRedir with
      | some p => p
      | none => devNull
    if sys.openInOk then
      let sourceFd := lowestFree fds
      let fds1 := fdSet fds sourceFd (some { path := path, flags := .rdonly })
      if sys.dupInOk then .ok (fdSet fds1 0 (fdGet fds1 sourceFd))
      else .error (.exited 1 [])
    else
      .error (.exited 1 ["cannot open " ++ showPath cmd.inputRedir ++ " for input \n"])
  else .ok fds

/-- The output redirection of the child (lines 860-890), the same way with
descriptor 1. -/
def redirectOutput (cmd : commandStruct) (fds : FdTable) (sys : ChildSys) :
    Except ChildEnd FdTable :=
  if cmd.outputRedir ≠ none ∨ cmd.bkgrdInd = true then
    let path := match cmd.outputRedir with
      | some p => p
      | none => devNull
    if sys.openOutOk then
      let targetFd := lowestFree fds
      let fds1 := fdSet fds targetFd (some { path := path, flags := .wronlyCreatTrunc })
      if sys.dupOutOk then .ok (fdSet fds1 1 (fdGet fds1 targetFd))
      else .error (.exited 1 [])
    else
      .error (.exited 1 ["cannot open " ++ showPath cmd.outputRedir ++ " for output \n"])
  else .ok fds

/-- The override of lines 792-796 (and 816-819 in the child): in
foreground-only mode the background flag of the command is cleared. -/
def overrideBkgrd (foregroundOnlyMode : Bool) (cmd : commandStruct) : commandStruct :=
  if foregroundOnlyMode then { cmd with bkgrdInd := false } else cmd

/-- The child branch of `executeAsChild` (`case 0`, lines 808-897), started
with the command as the parent left it, the mode flag and the descriptor table
it inherits.  `execOk` tells whether `execvp` replaces the program; when it
fails the child exits with code 2.  The child ignores `SIGTSTP` in every case,
which the result does not record. -/
def executeChild (foregroundOnlyMode : Bool) (cmd0 : commandStruct) (fds : FdTable)
    (sys : ChildSys) (execOk : Bool) : ChildEnd :=
  let cmd := overrideBkgrd foregroundOnlyMode cmd0
  match redirectInput cmd fds sys with
  | .error e => e
  | .ok fds1 =>
    match redirectOutput cmd fds1 sys with
    | .error e => e
    | .ok fds2 =>
      if execOk then .execvp cmd.command cmd.arguments fds2 (!cmd.bkgrdInd) cmd.bkgrdInd
      else .exited 2 []

/-! ## The process executor -/

/-- The results of the system calls `executeAsChild` makes: what `fork`
returns, what `getpid` returns in the parent, what the blocking `waitpid`
returns and the status it stores, and for the child its descriptor table and
the outcome of its calls. -/
structure SysResults where
  spawnPid : Int
  shellPid : Int
  waitPid : Int
  waitStatus : Int
  childFds : FdTable
  childSys : ChildSys
  execOk : Bool
  deriving DecidableEq, Repr

/-- How a call of `executeAsChild` ends in the process that made it or in the
new process. -/
inductive ExecOutcome where
  /-- `fork` failed: the shell prints the error and exits with code 1. -/
  | forkFailed
  /-- The branch of the new process. -/
  | child (c : ChildEnd)
  /-- The branch of the shell: its state when the function returns and the
  text it printed. -/
  | parent (st : ShellState) (out : List String)
  deriving DecidableEq, Repr

/-- The parent branch of `executeAsChild` (`default`, lines 900-966) for the
command after the override.  A foreground child is waited for, its status and
pid are stored, and the notice is printed when the status equals 2; a
background child has its pid printed and put at the head of the list, and the
last foreground pid becomes the pid of the shell.  The closing
`waitpid(spawnPid, &childStatus, WNOHANG)` of line 963 stores into local
variables only and leaves the state of the shell as it is. -/
def executeParent (cmd : commandStruct) (st : ShellState) (sys : SysResults) :
    ShellState × List String :=
  if cmd.bkgrdInd = false then
    ({ st with childStatus := sys.waitStatus, lastForegroundPid := sys.waitPid },
      if sys.waitStatus = 2 then
        ["terminated by signal " ++ toString sys.waitStatus ++ "\n"]
      else [])
  else
    ({ st with lastForegroundPid := sys.shellPid, pidList := sys.spawnPid :: st.pidList },
      ["background pid is " ++ toString sys.spawnPid ++ " \n"])

/-- The function `executeAsChild`: the override of the background flag, `fork`,
and the branch of the `switch` on its result. -/
def executeAsChild (currentCmdStruct : commandStruct) (st : ShellState) (sys : SysResults) :
    ExecOutcome :=
  let cmd := overrideBkgrd st.foregroundOnlyMode currentCmdStruct
  if sys.spawnPid = -1 then .forkFailed
  else if sys.spawnPid = 0 then
    .child (executeChild st.foregroundOnlyMode cmd sys.childFds sys.childSys sys.execOk)
  else
    .parent (executeParent cmd st sys).1 (executeParent cmd st sys).2

/-! ## The dispatch loop -/

/-- What one iteration of the loop of `main` does with the parsed line. -/
inductive Dispatch where
  /-- Nothing: the line is not a command. -/
  | skip
  /-- The built-in `cd` with `arguments[1]`. -/
  | cd (path : Option (List Char))
  /-- The built-in `status`. -/
  | status
  /-- The built-in `exit`. -/
  | exit
  /-- The process executor. -/
  | execute (cmd : commandStruct)
  deriving DecidableEq, Repr

/-- The choice the loop of `main` makes (lines 160-189): a `NULL` command, a
command whose first character is that of `COMMENT` (`strncmp` over one
character) and the command `" "` are screened out; `cd`, `status` and `exit`
go to the built-ins and everything else to `executeAsChild`. -/
def dispatch (commandLine : Option commandStruct) : Dispatch :=
  match commandLine with
  | none => .skip
  | some c =>
    if c.command.take 1 ≠ COMMENT.take 1 ∧ c.command ≠ " ".toList then
      if c.command = "cd".toList then .cd (c.arguments.get? 1)
      else if c.command = "status".toList then .status
      else if c.command = "exit".toList then .exit
      else .execute c
    else .skip

/-- The characters of a stream up to and with its first newline. -/
def upToNewline : List Char → List Char
  | [] => []
  | c :: cs => if c = '\n' then [c] else c :: upToNewline cs

/-- The call `fgets(inputString, size, stdin)` on the characters waiting in the
stream: it stores the characters up to and with the first newline, and at most
`size - 1` of them; the string the code then works on ends before the first
NUL character stored, if there is one. -/
def fgets (size : Nat) (stream : List Char) : List Char :=
  ((upToNewline stream).take (size - 1)).takeWhile (fun c => c != '\x00')

/-- The function `getInput`: read a line of at most `MAX_ARG_LENGTH - 1`
characters and expand it. -/
def getInput (processID : Nat) (stream : List Char) : Option (List Char) :=
  expandInput processID (fgets MAX_ARG_LENGTH stream)

/-- The first half of an iteration of the loop of `main`: read and expand a
line, parse it into the block `fresh`, and choose what to run.  The result is
`none` when the code wrote outside an allocation on the way (the expander past
its buffer, or the parser outside the array `arguments`), after which the
source defines nothing. -/
def mainDispatch (processID : Nat) (fresh : commandStruct) (stream : List Char) :
    Option Dispatch :=
  match getInput processID stream with
  | none => none
  | some input =>
    match processInput fresh input with
    | .null => some (dispatch none)
    | .command c => some (dispatch (some c))
    | .outOfBounds _ => none

/-- The string `pid` written `k` times. -/
def repeatPid (pid : List Char) : Nat → List Char
  | 0 => []
  | k + 1 => pid ++ repeatPid pid k

/-! ## Runs of the shell used to state the properties -/

/-- A command that asks for the background and has no redirection. -/
def bgCommand : commandStruct :=
  { command := "sleep".toList, arguments := ["sleep".toList, "5".toList],
    inputRedir := none, outputRedir := none, bkgrdInd := true }

/-- Every system call of the child succeeds. -/
def allOk : ChildSys :=
  { openInOk := true, dupInOk := true, openOutOk := true, dupOutOk := true }

/-- System call results for a `fork` that returns `spawnPid` in the shell, whose
own pid is `shellPid`. -/
def sysForPid (spawnPid shellPid : Int) : SysResults :=
  { spawnPid := spawnPid
    shellPid := shellPid
    waitPid := spawnPid
    waitStatus := 0
    childFds := []
    childSys := allOk
    execOk := true }

/-- Launch one background command per process id of the list, in order, each
through `executeAsChild` in the shell; a failed `fork` ends the run. -/
def launchAll (shellPid : Int) : List Int → ShellState → ShellState
  | [], st => st
  | pid :: pids, st =>
    match executeAsChild bgCommand st (sysForPid pid shellPid) with
    | .parent st1 _ => launchAll shellPid pids st1
    | _ => st

/-- Call `processCheck` once per process id of `order`, `waitpid` reporting
that process, ended with wait status `status`, at each call.  Returns the list
afterwards and all the notices printed. -/
def reapAll (status : Int) : List Int → List Int → List Int × List String
  | [], listHead => (listHead, [])
  | pid :: order, listHead =>
    ((reapAll status order (processCheck listHead pid status).1).1,
      (processCheck listHead pid status).2
        ++ (reapAll status order (processCheck listHead pid status).1).2)

/-- A descriptor table with the three standard streams on the terminal. -/
def ttyFds : FdTable :=
  [some { path := "/dev/tty".toList, flags := .rdonly },
   some { path := "/dev/tty".toList, flags := .wronlyCreatTrunc },
   some { path := "/dev/tty".toList, flags := .wronlyCreatTrunc }]

/-- System call results in the new process (`fork` returned 0) started from
the terminal, with every call succeeding. -/
def sysInChild : SysResults :=
  { spawnPid := 0
    shellPid := 1
    waitPid := 0
    waitStatus := 0
    childFds := ttyFds
    childSys := allOk
    execOk := true }

/-- The descriptor table `bgCommand` starts its program with, from `ttyFds`:
0 and 3 read `/dev/null`, 1 and 4 write to it, 2 is the terminal. -/
def bgFds : FdTable :=
  [some { path := devNull, flags := .rdonly },
   some { path := devNull, flags := .wronlyCreatTrunc },
   some { path := "/dev/tty".toList, flags := .wronlyCreatTrunc },
   some { path := devNull, flags := .rdonly },
   some { path := devNull, flags := .wronlyCreatTrunc }]

/-- Modelled from the spec: the wait status of a process that exited with code
`c`, in the POSIX/Linux encoding (bits 8-15 hold the exit code, the low 7 bits
are zero). -/
def exitStatus (c : Nat) : Int := (c : Int) * 256

/-- Modelled from the spec: the wait status of a process killed by signal `n`,
in the POSIX/Linux encoding (the low 7 bits hold the signal, bit 7 is set when
a core was dumped). -/
def signalStatus (n : Nat) (core : Bool) : Int := (n : Int) + (if core then 128 else 0)

/-- A command that does not ask for the background. -/
def fgCommand : commandStruct :=
  { command := "ls".toList, arguments := ["ls".toList],
    inputRedir := none, outputRedir := none, bkgrdInd := false }

/-- What the `status` built-in prints when it runs right after `executeAsChild`
returned in the shell (`none` when `executeAsChild` does not return there). -/
def statusAfterCommand (cmd : commandStruct) (st : ShellState) (sys : SysResults) :
    Option String :=
  match executeAsChild cmd st sys with
  | .parent st1 _ => some (statusProcess st1.childStatus)
  | _ => none

/-- The first character of the first token of a line, if the line has a token. -/
def firstChar (s : List Char) : Option Char := (s.dropWhile isDelim).head?

/-- The line made of the word `w` written `n` times, a space after each. -/
def repeatWord (w : List Char) : Nat → List Char
  | 0 => []
  | n + 1 => w ++ ' ' :: repeatWord w n

/-- One step of the operator loop as it reads the tokens: a whole clause, or a
single token that is none of the operators, which the loop passes over. -/
inductive OpItem where
  | clause (c : Clause)
  | passed (t : List Char)
  deriving DecidableEq, Repr

/-- The tokens of an item. -/
def OpItem.toks : OpItem → List (List Char)
  | .clause c => c.toks
  | .passed t => [t]

/-- What `executeAsChild` prints in the shell (`none` when it does not return
there). -/
def shellOutput (cmd : commandStruct) (st : ShellState) (sys : SysResults) :
    Option (List String) :=
  match executeAsChild cmd st sys with
  | .parent _ out => some out
  | _ => none

/-- The number of entries `processInput` stores in `arguments` for a line with
these tokens: the first token and the tokens after it up to the first
operator.  The terminating `NULL` is stored at this index. -/
def argCount : List (List Char) → Nat
  | [] => 0
  | _ :: ts => (ts.takeWhile (fun x => !isOperator x)).length + 1

/-- The line `getInput` hands to the parser: the line read, expanded. -/
def expandedLine (processID : Nat) (stream : List Char) : List Char :=
  expandSpec (pidString processID) (fgets MAX_ARG_LENGTH stream)

/-! # Lemmas and theorems -/

/-! ## Tokens and `strtok_r` -/

theorem tokensAux_eq (s : List Char) : ∀ cur : List Char,
    tokensAux s cur =
      (if cur.reverse ++ s.takeWhile (fun x => !isDelim x) = [] then []
       else [cur.reverse ++ s.takeWhile (fun x => !isDelim x)])
      ++ tokensAux (s.dropWhile (fun x => !isDelim x)).tail [] := by
  induction s with
  | nil => intro cur; simp [tokensAux]
  | cons c cs ih =>
    intro cur
    by_cases hc : isDelim c = true
    · simp [tokensAux, hc, List.takeWhile, List.dropWhile]
      split <;> simp
    · simp only [Bool.not_eq_true] at hc
      simp [tokensAux, hc, List.takeWhile, List.dropWhile]
      rw [ih (c :: cur)]
      simp

theorem tokens_dropDelims (s : List Char) : tokens (s.dropWhile isDelim) = tokens s := by
  induction s with
  | nil => rfl
  | cons c cs ih =>
    by_cases hc : isDelim c = true
    · rw [List.dropWhile_cons_of_pos hc, ih]
      simp [tokens, tokensAux, hc]
    · rw [List.dropWhile_cons_of_neg hc]

theorem tokens_cons_nondelim (c : Char) (cs : List Char) (hc : isDelim c = false) :
    tokens (c :: cs) =
      (c :: cs).takeWhile (fun x => !isDelim x)
        :: tokens ((c :: cs).dropWhile (fun x => !isDelim x)).tail := by
  unfold tokens
  rw [tokensAux_eq]
  simp [List.takeWhile, hc]

theorem head_dropDelims (s : List Char) (c : Char) (cs : List Char)
    (h : s.dropWhile isDelim = c :: cs) : isDelim c = false := by
  have := List.head_dropWhile_not isDelim s (by rw [h]; simp)
  simpa [h] using this

theorem strtok_r_nil (s : List Char) (h : tokens s = []) : strtok_r s = (none, []) := by
  unfold strtok_r
  cases hd : s.dropWhile isDelim with
  | nil => rfl
  | cons c cs =>
    have hc := head_dropDelims s c cs hd
    rw [← tokens_dropDelims, hd, tokens_cons_nondelim c cs hc] at h
    cases h

theorem strtok_r_cons (s : List Char) (t : List Char) (ts : List (List Char))
    (h : tokens s = t :: ts) : ∃ p, strtok_r s = (some t, p) ∧ tokens p = ts := by
  unfold strtok_r
  cases hd : s.dropWhile isDelim with
  | nil =>
    rw [← tokens_dropDelims, hd] at h
    cases h
  | cons c cs =>
    have hc := head_dropDelims s c cs hd
    rw [← tokens_dropDelims, hd, tokens_cons_nondelim c cs hc] at h
    injection h with h1 h2
    exact ⟨_, by simp only [h1], h2⟩

theorem strtok_r_stream (s : List Char) :
    TokenStream (strtok_r s).1 (strtok_r s).2 (tokens s) := by
  cases h : tokens s with
  | nil => rw [strtok_r_nil s h]; exact ⟨rfl, rfl⟩
  | cons t ts =>
    obtain ⟨p, hp, hts⟩ := strtok_r_cons s t ts h
    rw [hp]; exact ⟨rfl, hts⟩

theorem isOperator_false_iff (t : List Char) :
    isOperator t = false ↔ (t ≠ IN ∧ t ≠ OUT ∧ t ≠ BKGRD) := by
  simp [isOperator, not_or, and_assoc]

/-! ## The parser agrees with its description on tokens -/

theorem argLoop_stream (ts : List (List Char)) :
    ∀ (tk : Option (List Char)) (p : List Char) (args : List (List Char)),
      TokenStream tk p ts →
      (argLoop tk p args).1 = args ++ ts.takeWhile (fun t => !isOperator t) ∧
      TokenStream (argLoop tk p args).2.1 (argLoop tk p args).2.2
        (ts.dropWhile (fun t => !isOperator t)) := by
  induction ts with
  | nil =>
    intro tk p args h
    obtain ⟨h1, h2⟩ := h
    subst h1
    rw [argLoop]
    exact ⟨by simp, rfl, h2⟩
  | cons t rest ih =>
    intro tk p args h
    obtain ⟨h1, h2⟩ := h
    subst h1
    rw [argLoop]
    by_cases hop : isOperator t = false
    · have hc := (isOperator_false_iff t).1 hop
      rw [if_pos hc]
      have hs : TokenStream (strtok_r p).1 (strtok_r p).2 rest := by
        have := strtok_r_stream p
        rwa [h2] at this
      obtain ⟨e1, e2⟩ := ih (strtok_r p).1 (strtok_r p).2 (args ++ [t]) hs
      refine ⟨?_, ?_⟩
      · rw [e1]; simp [List.takeWhile, hop]
      · simpa [List.dropWhile, hop] using e2
    · have hc : ¬ (t ≠ IN ∧ t ≠ OUT ∧ t ≠ BKGRD) := fun h => hop ((isOperator_false_iff t).2 h)
      rw [if_neg hc]
      simp only [Bool.not_eq_false] at hop
      refine ⟨?_, ?_⟩
      · simp [List.takeWhile, hop]
      · simpa [List.dropWhile, hop] using (show TokenStream (some t) p (t :: rest) from ⟨rfl, h2⟩)

theorem opLoop_brk (cmd : commandStruct) (tk : Option (List Char)) (p : List Char)
    (c : commandStruct) (m : String) (h : opBody cmd tk p = .brk c m) :
    opLoop cmd tk p = (c, [m]) := by
  rw [opLoop]
  split
  · rename_i heq; rw [h] at heq; cases heq; rfl
  · rename_i heq; rw [h] at heq; cases heq

theorem opLoop_cont (cmd : commandStruct) (tk : Option (List Char)) (p : List Char)
    (c : commandStruct) (p1 : List Char) (h : opBody cmd tk p = .cont c p1) :
    opLoop cmd tk p =
      match (strtok_r p1).1 with
      | some t1 => opLoop c (some t1) (strtok_r p1).2
      | none => (c, []) := by
  rw [opLoop]
  split
  · rename_i heq; rw [h] at heq; cases heq
  · rename_i heq
    rw [h] at heq
    cases heq
    split <;> rename_i hs <;> rw [hs]

theorem opLoop_next (cmd : commandStruct) (tk : Option (List Char)) (p : List Char)
    (c : commandStruct) (p1 : List Char) (h : opBody cmd tk p = .cont c p1) :
    opLoop cmd tk p =
      match tokens p1 with
      | [] => (c, [])
      | t1 :: _ => opLoop c (some t1) (strtok_r p1).2 := by
  rw [opLoop_cont cmd tk p c p1 h]
  cases ht : tokens p1 with
  | nil => rw [strtok_r_nil p1 ht]
  | cons t1 r =>
    obtain ⟨q, hq, _⟩ := strtok_r_cons p1 t1 r ht
    rw [hq]

theorem opLoop_tokens_aux (n : Nat) :
    ∀ (ts : List (List Char)), ts.length ≤ n →
    ∀ (cmd : commandStruct) (tk : Option (List Char)) (p : List Char),
      TokenStream tk p ts → (opLoop cmd tk p).1 = opTokens cmd ts := by
  induction n with
  | zero =>
    intro ts hlen cmd tk p h
    have : ts = [] := List.length_eq_zero.1 (Nat.le_zero.1 hlen)
    subst this
    obtain ⟨h1, h2⟩ := h
    subst h1
    rw [opLoop_next cmd none p cmd p rfl, h2]
    rfl
  | succ m ih =>
    intro ts hlen cmd tk p h
    -- what happens after a body that reached its end
    have step : ∀ (c : commandStruct) (p1 : List Char) (r : List (List Char)),
        opBody cmd tk p = .cont c p1 → tokens p1 = r → r.length ≤ m →
        (opLoop cmd tk p).1 = opTokens c r := by
      intro c p1 r hb hr hl
      rw [opLoop_next cmd tk p c p1 hb]
      cases r with
      | nil => rw [hr]; rfl
      | cons t1 r1 =>
        rw [hr]
        obtain ⟨q, hq, hq2⟩ := strtok_r_cons p1 t1 r1 hr
        exact ih (t1 :: r1) hl c (some t1) (strtok_r p1).2 ⟨rfl, by rw [hq]; exact hq2⟩
    cases ts with
    | nil =>
      obtain ⟨h1, h2⟩ := h
      subst h1
      exact step cmd p [] rfl h2 (Nat.zero_le _)
    | cons t rest =>
      obtain ⟨h1, h2⟩ := h
      subst h1
      have hrest : rest.length ≤ m := by simpa using hlen
      by_cases hin : t = IN
      · subst hin
        cases rest with
        | nil =>
          have hb : opBody cmd (some IN) p = .brk cmd "Syntax error after \"<\" \n" := by
            simp [opBody, strtok_r_nil p h2]
          rw [opLoop_brk cmd (some IN) p _ _ hb]
          simp [opTokens]
        | cons p1 rest1 =>
          obtain ⟨q, hq, hq2⟩ := strtok_r_cons p p1 rest1 h2
          have hb : opBody cmd (some IN) p = .cont { cmd with inputRedir := some p1 } q := by
            simp [opBody, hq]
          rw [step _ q rest1 hb hq2 (by simp at hrest; omega)]
          simp [opTokens]
      · by_cases hout : t = OUT
        · subst hout
          cases rest with
          | nil =>
            have hb : opBody cmd (some OUT) p = .brk cmd "Syntax error after \">\"\n" := by
              simp [opBody, strtok_r_nil p h2, hin]
            rw [opLoop_brk cmd (some OUT) p _ _ hb]
            simp [opTokens, hin]
          | cons p1 rest1 =>
            obtain ⟨q, hq, hq2⟩ := strtok_r_cons p p1 rest1 h2
            have hb : opBody cmd (some OUT) p = .cont { cmd with outputRedir := some p1 } q := by
              simp [opBody, hq, hin]
            rw [step _ q rest1 hb hq2 (by simp at hrest; omega)]
            simp [opTokens, hin]
        · by_cases hbk : t = BKGRD
          · subst hbk
            have hb : opBody cmd (some BKGRD) p = .cont { cmd with bkgrdInd := true } p := by
              simp [opBody, hin, hout]
            rw [step _ p rest hb h2 hrest]
            cases rest <;> simp [opTokens, hin, hout]
          · have hb : opBody cmd (some t) p = .cont cmd p := by
              simp [opBody, hin, hout, hbk]
            rw [step _ p rest hb h2 hrest]
            cases rest <;> simp [opTokens, hin, hout, hbk]

theorem opLoop_tokens (ts : List (List Char)) (cmd : commandStruct)
    (tk : Option (List Char)) (p : List Char) (h : TokenStream tk p ts) :
    (opLoop cmd tk p).1 = opTokens cmd ts :=
  opLoop_tokens_aux ts.length ts (le_refl _) cmd tk p h

/-- The stores of the parser, described on the tokens of the line: no token
gives `NULL`; otherwise the command is the first token, the entries stored in
`arguments` are the first token and the following tokens up to the first
operator, and the operator loop runs on the tokens from the first operator on. -/
theorem storedCommand_eq (fresh : commandStruct) (s : List Char) :
    storedCommand fresh s =
      match tokens s with
      | [] => none
      | t :: ts =>
        some (opTokens
          { command := t
            arguments := t :: ts.takeWhile (fun x => !isOperator x)
            inputRedir := fresh.inputRedir
            outputRedir := fresh.outputRedir
            bkgrdInd := false }
          (ts.dropWhile (fun x => !isOperator x))) := by
  unfold storedCommand processInputRun
  cases h : tokens s with
  | nil => rw [strtok_r_nil s h]
  | cons t ts =>
    obtain ⟨p, hp, hts⟩ := strtok_r_cons s t ts h
    rw [hp]
    have hs : TokenStream (strtok_r p).1 (strtok_r p).2 ts := by
      have := strtok_r_stream p
      rwa [hts] at this
    obtain ⟨e1, e2⟩ := argLoop_stream ts (strtok_r p).1 (strtok_r p).2 [t] hs
    simp only
    rw [opLoop_tokens _ _ _ _ e2, e1]
    rfl

theorem opTokens_bkgrd (cmd : commandStruct) (rest : List (List Char)) :
    opTokens cmd (BKGRD :: rest) = opTokens { cmd with bkgrdInd := true } rest := by
  have h1 : ¬ BKGRD = IN := by decide
  have h2 : ¬ BKGRD = OUT := by decide
  cases rest <;> simp [opTokens, h1, h2]

theorem opTokens_other (cmd : commandStruct) (t : List Char) (rest : List (List Char))
    (h1 : ¬ t = IN) (h2 : ¬ t = OUT) (h3 : ¬ t = BKGRD) :
    opTokens cmd (t :: rest) = opTokens cmd rest := by
  cases rest <;> simp [opTokens, h1, h2, h3]

theorem opTokens_command (cmd : commandStruct) (ts : List (List Char)) :
    (opTokens cmd ts).command = cmd.command := by
  induction cmd, ts using opTokens.induct with
  | case6 cmd rest _ _ ih => rw [opTokens_bkgrd, ih]
  | case7 cmd t rest h1 h2 h3 ih => rw [opTokens_other cmd t rest h1 h2 h3, ih]
  | _ => simp_all [opTokens]

theorem opTokens_arguments (cmd : commandStruct) (ts : List (List Char)) :
    (opTokens cmd ts).arguments = cmd.arguments := by
  induction cmd, ts using opTokens.induct with
  | case6 cmd rest _ _ ih => rw [opTokens_bkgrd, ih]
  | case7 cmd t rest h1 h2 h3 ih => rw [opTokens_other cmd t rest h1 h2 h3, ih]
  | _ => simp_all [opTokens]

theorem opTokens_clause (c : Clause) (cmd : commandStruct) (rest : List (List Char)) :
    opTokens cmd (c.toks ++ rest) = opTokens (c.apply cmd) rest := by
  cases c with
  | input p => simp [Clause.toks, Clause.apply, opTokens]
  | output q =>
    have : ¬ OUT = IN := by decide
    simp [Clause.toks, Clause.apply, opTokens, this]
  | background =>
    simp only [Clause.toks, Clause.apply, List.singleton_append]
    exact opTokens_bkgrd cmd rest

theorem opTokens_clauses (cs : List Clause) :
    ∀ cmd : commandStruct, opTokens cmd (clauseTokens cs) = cs.foldl Clause.apply cmd := by
  induction cs with
  | nil => intro cmd; rfl
  | cons c cs ih =>
    intro cmd
    rw [clauseTokens, opTokens_clause, ih, List.foldl_cons]

theorem dropWhile_words_clauses (ws : List (List Char)) (cs : List Clause)
    (hws : ∀ w ∈ ws, isOperator w = false) :
    (ws ++ clauseTokens cs).dropWhile (fun x => !isOperator x) = clauseTokens cs := by
  induction ws with
  | nil =>
    cases cs with
    | nil => rfl
    | cons c cs => cases c <;> rfl
  | cons w ws ih =>
    have hw : isOperator w = false := hws w (List.mem_cons_self _ _)
    simp only [List.cons_append, List.dropWhile, hw, Bool.not_false]
    exact ih (fun x hx => hws x (List.mem_cons_of_mem _ hx))

theorem takeWhile_words_clauses (ws : List (List Char)) (cs : List Clause)
    (hws : ∀ w ∈ ws, isOperator w = false) :
    (ws ++ clauseTokens cs).takeWhile (fun x => !isOperator x) = ws := by
  induction ws with
  | nil =>
    cases cs with
    | nil => rfl
    | cons c cs => cases c <;> rfl
  | cons w ws ih =>
    have hw : isOperator w = false := hws w (List.mem_cons_self _ _)
    simp only [List.cons_append, List.takeWhile, hw, Bool.not_false]
    exact congrArg (w :: ·) (ih (fun x hx => hws x (List.mem_cons_of_mem _ hx)))

theorem takeWhile_words_operator (ws rest : List (List Char)) (op : List Char)
    (hws : ∀ w ∈ ws, isOperator w = false) (hop : isOperator op = true) :
    (ws ++ op :: rest).takeWhile (fun x => !isOperator x) = ws ∧
    (ws ++ op :: rest).dropWhile (fun x => !isOperator x) = op :: rest := by
  induction ws with
  | nil => simp [List.takeWhile, List.dropWhile, hop]
  | cons w ws ih =>
    have hw : isOperator w = false := hws w (List.mem_cons_self _ _)
    have := ih (fun x hx => hws x (List.mem_cons_of_mem _ hx))
    simp only [List.cons_append, List.takeWhile, List.dropWhile, hw, Bool.not_false]
    exact ⟨congrArg (w :: ·) this.1, this.2⟩

/-- The stores of the parser on a line of the form `w0 w1 ... wn` followed by
operator clauses: the command is built from the words and the clauses are
applied to it in order, starting from the content of the allocated block. -/
theorem storedCommand_words_clauses (fresh : commandStruct) (s : List Char)
    (w0 : List Char) (ws : List (List Char)) (cs : List Clause)
    (hws : ∀ w ∈ ws, isOperator w = false)
    (hs : tokens s = w0 :: ws ++ clauseTokens cs) :
    storedCommand fresh s =
      some (cs.foldl Clause.apply
        { command := w0, arguments := w0 :: ws, inputRedir := fresh.inputRedir,
          outputRedir := fresh.outputRedir, bkgrdInd := false }) := by
  rw [storedCommand_eq, hs]
  simp only [List.cons_append]
  rw [dropWhile_words_clauses ws cs hws, takeWhile_words_clauses ws cs hws, opTokens_clauses]

/-! ## Command name and arguments -/

/-- The entries the parser stores, for every line with at least one token: the
name is the first token and the entries are the first token followed, in
order, by the later tokens that precede the first operator. -/
theorem storedCommand_arguments (fresh : commandStruct) (s : List Char)
    (t : List Char) (ts : List (List Char)) (h : tokens s = t :: ts) :
    (storedCommand fresh s).map (fun c => (c.command, c.arguments))
        = some (t, t :: ts.takeWhile (fun x => !isOperator x)) ∧
    (storedCommand fresh s).map (fun c => c.arguments.head?) = some (some t) := by
  rw [storedCommand_eq, h]
  simp [opTokens_command, opTokens_arguments]

/-- The function `processInput`, described on the tokens of the line: no token
gives `NULL`; a line whose entries fit the array gives the command built from
its tokens; a line with `MAX_ARGS` entries or more makes the code store outside
the array. -/
theorem processInput_eq (fresh : commandStruct) (s : List Char) :
    processInput fresh s =
      match tokens s with
      | [] => .null
      | t :: ts =>
        if argCount (t :: ts) < MAX_ARGS then
          .command (opTokens
            { command := t
              arguments := t :: ts.takeWhile (fun x => !isOperator x)
              inputRedir := fresh.inputRedir
              outputRedir := fresh.outputRedir
              bkgrdInd := false }
            (ts.dropWhile (fun x => !isOperator x)))
        else .outOfBounds MAX_ARGS := by
  unfold processInput
  rw [storedCommand_eq]
  cases tokens s with
  | nil => rfl
  | cons t ts => simp only [opTokens_arguments, argCount, List.length_cons]

/-- For every line with at least one token whose entries fit the array,
`processInput` returns a command whose name is the first token and whose
arguments are the first token followed, in order, by the later tokens that
precede the first token equal to `<`, `>` or `&` (all of them when there is
none); in particular argument 0 is the command name. -/
theorem processInput_command_arguments (fresh : commandStruct) (s : List Char)
    (t : List Char) (ts : List (List Char)) (h : tokens s = t :: ts)
    (hfit : argCount (t :: ts) < MAX_ARGS) :
    ∃ c, processInput fresh s = .command c ∧ c.command = t ∧
      c.arguments = t :: ts.takeWhile (fun x => !isOperator x) ∧
      c.arguments.head? = some c.command := by
  rw [processInput_eq, h]
  simp only [if_pos hfit]
  exact ⟨_, rfl, by simp [opTokens_command], by simp [opTokens_arguments],
    by simp [opTokens_command, opTokens_arguments]⟩

/-- On the line `ls -la < in.txt > out.txt &` the command is `ls` and the
arguments are `ls`, `-la`. -/
theorem processInput_command_arguments_example :
    ∃ c, processInput staleBlock "ls -la < in.txt > out.txt &\n".toList = .command c ∧
      c.command = "ls".toList ∧ c.arguments = ["ls".toList, "-la".toList] := by
  obtain ⟨c, h1, h2, h3, _⟩ :=
    processInput_command_arguments staleBlock "ls -la < in.txt > out.txt &\n".toList
      "ls".toList ["-la".toList, "<".toList, "in.txt".toList, ">".toList,
        "out.txt".toList, "&".toList] (by decide) (by decide)
  exact ⟨c, h1, h2, h3⟩

/-! ## C2: the operator clauses -/

theorem foldl_apply_inputRedir_none (cs : List Clause) :
    ∀ cmd : commandStruct, (∀ p, Clause.input p ∉ cs) →
      (cs.foldl Clause.apply cmd).inputRedir = cmd.inputRedir := by
  induction cs with
  | nil => intro cmd _; rfl
  | cons c cs ih =>
    intro cmd h
    rw [List.foldl_cons, ih _ (fun p hp => h p (List.mem_cons_of_mem _ hp))]
    cases c with
    | input p => exact absurd (List.mem_cons_self _ _) (h p)
    | output q => rfl
    | background => rfl

theorem foldl_apply_outputRedir_none (cs : List Clause) :
    ∀ cmd : commandStruct, (∀ q, Clause.output q ∉ cs) →
      (cs.foldl Clause.apply cmd).outputRedir = cmd.outputRedir := by
  induction cs with
  | nil => intro cmd _; rfl
  | cons c cs ih =>
    intro cmd h
    rw [List.foldl_cons, ih _ (fun p hp => h p (List.mem_cons_of_mem _ hp))]
    cases c with
    | input p => rfl
    | output q => exact absurd (List.mem_cons_self _ _) (h q)
    | background => rfl

theorem foldl_apply_inputRedir_some (cs : List Clause) :
    ∀ (cmd : commandStruct) (p : List Char), (cs.map Clause.kind).Nodup →
      Clause.input p ∈ cs → (cs.foldl Clause.apply cmd).inputRedir = some p := by
  induction cs with
  | nil => intro cmd p _ h; cases h
  | cons c cs ih =>
    intro cmd p hnd h
    rw [List.map_cons, List.nodup_cons] at hnd
    rw [List.foldl_cons]
    rcases List.mem_cons.1 h with h1 | h1
    · subst h1
      rw [foldl_apply_inputRedir_none]
      · rfl
      · intro p1 hp1
        exact hnd.1 (List.mem_map.2 ⟨_, hp1, rfl⟩)
    · exact ih _ p hnd.2 h1

theorem foldl_apply_outputRedir_some (cs : List Clause) :
    ∀ (cmd : commandStruct) (q : List Char), (cs.map Clause.kind).Nodup →
      Clause.output q ∈ cs → (cs.foldl Clause.apply cmd).outputRedir = some q := by
  induction cs with
  | nil => intro cmd p _ h; cases h
  | cons c cs ih =>
    intro cmd q hnd h
    rw [List.map_cons, List.nodup_cons] at hnd
    rw [List.foldl_cons]
    rcases List.mem_cons.1 h with h1 | h1
    · subst h1
      rw [foldl_apply_outputRedir_none]
      · rfl
      · intro q1 hq1
        exact hnd.1 (List.mem_map.2 ⟨_, hq1, rfl⟩)
    · exact ih _ q hnd.2 h1

theorem foldl_apply_bkgrdInd (cs : List Clause) :
    ∀ cmd : commandStruct,
      (cs.foldl Clause.apply cmd).bkgrdInd = (cmd.bkgrdInd || decide (Clause.background ∈ cs)) := by
  induction cs with
  | nil => intro cmd; simp
  | cons c cs ih =>
    intro cmd
    rw [List.foldl_cons, ih]
    cases c <;> simp [Clause.apply]

/-- What the stores of the parser are proved to be on a line `w0 ... wn`
followed by operator clauses, each operator used at most once, in any order
(they are the command returned when the words fit the array): a redirection field
holds the path of its clause when the clause is present and is left as the
allocated block had it when the clause is absent; the background flag is set
exactly when `&` is present. -/
theorem storedCommand_clause_fields (fresh : commandStruct) (s : List Char)
    (w0 : List Char) (ws : List (List Char)) (cs : List Clause)
    (hws : ∀ w ∈ ws, isOperator w = false)
    (hk : (cs.map Clause.kind).Nodup)
    (hs : tokens s = w0 :: ws ++ clauseTokens cs) :
    ∃ cmd, storedCommand fresh s = some cmd ∧
      (∀ p, Clause.input p ∈ cs → cmd.inputRedir = some p) ∧
      ((∀ p, Clause.input p ∉ cs) → cmd.inputRedir = fresh.inputRedir) ∧
      (∀ q, Clause.output q ∈ cs → cmd.outputRedir = some q) ∧
      ((∀ q, Clause.output q ∉ cs) → cmd.outputRedir = fresh.outputRedir) ∧
      (cmd.bkgrdInd = true ↔ Clause.background ∈ cs) := by
  refine ⟨_, storedCommand_words_clauses fresh s w0 ws cs hws hs, ?_, ?_, ?_, ?_, ?_⟩
  · intro p hp; exact foldl_apply_inputRedir_some cs _ p hk hp
  · intro h; exact foldl_apply_inputRedir_none cs _ h
  · intro q hq; exact foldl_apply_outputRedir_some cs _ q hk hq
  · intro h; exact foldl_apply_outputRedir_none cs _ h
  · rw [foldl_apply_bkgrdInd]; simp

/-- C2 at the line `ls` (no clause at all), parsed into a block of memory that
was used before: the parser returns a command whose input and output
redirections are the old pointers of the block, not "absent". -/
theorem C2_processInput_unset_redirects_keep_block_content :
    (storedCommand staleBlock "ls\n".toList).map (fun c => (c.inputRedir, c.outputRedir))
      = some (some "old.txt".toList, some "old.txt".toList) ∧
    processInput staleBlock "ls\n".toList
      = .command { command := "ls".toList, arguments := ["ls".toList],
                   inputRedir := some "old.txt".toList,
                   outputRedir := some "old.txt".toList, bkgrdInd := false } := by
  refine ⟨?_, ?_⟩
  · rw [storedCommand_eq]
    rfl
  · rw [processInput_eq]
    rfl

/-! ## The input expander -/

theorem strstr_map_succ_ne_zero (o : Option Nat) : o.map (fun k => k + 1) ≠ some 0 := by
  cases o <;> simp

/-- The test `strstr(p, EXP) == p` of the source holds exactly when the text at
`p` starts with two dollar signs. -/
theorem strstr_EXP_zero (s : List Char) :
    strstr s EXP = some 0 ↔ ∃ rest, s = '$' :: '$' :: rest := by
  cases s with
  | nil => simp [strstr, EXP]
  | cons c cs =>
    cases cs with
    | nil =>
      simp only [strstr, EXP]
      by_cases hc : c = '$' <;> simp [List.isPrefixOf, hc]
    | cons d rest =>
      rw [strstr]
      by_cases h : EXP.isPrefixOf (c :: d :: rest) = true
      · rw [if_pos h]
        simp only [EXP, List.isPrefixOf, Bool.and_true, Bool.and_eq_true, beq_iff_eq] at h
        simp [h.1.symm, h.2.symm]
      · rw [if_neg h]
        simp only [EXP, List.isPrefixOf, Bool.and_true, Bool.and_eq_true, beq_iff_eq] at h
        constructor
        · intro h1; exact absurd h1 (strstr_map_succ_ne_zero _)
        · rintro ⟨r, hr⟩
          injection hr with h1 h2
          injection h2 with h2 h3
          exact absurd ⟨h1.symm, h2.symm⟩ h

theorem copyLoop_eq (pid : List Char) (s : List Char) :
    ∀ acc : List Char, copyLoop pid s acc = acc ++ expandSpec pid s := by
  induction s using expandSpec.induct pid with
  | case1 => intro acc; rw [copyLoop]; simp [expandSpec]
  | case2 c =>
    intro acc
    rw [copyLoop]
    have h : ¬ strstr [c] EXP = some 0 := by
      rw [strstr_EXP_zero]; rintro ⟨r, hr⟩; cases hr
    rw [if_neg h, copyLoop]
    simp [expandSpec]
  | case3 c d rest hcd ih =>
    intro acc
    rw [copyLoop]
    have h : strstr (c :: d :: rest) EXP = some 0 := by
      rw [strstr_EXP_zero]; exact ⟨rest, by rw [hcd.1, hcd.2]⟩
    rw [if_pos h, List.tail_cons, ih]
    simp [expandSpec, hcd]
  | case4 c d rest hcd ih =>
    intro acc
    rw [copyLoop]
    have h : ¬ strstr (c :: d :: rest) EXP = some 0 := by
      rw [strstr_EXP_zero]
      rintro ⟨r, hr⟩
      injection hr with h1 h2
      injection h2 with h2 h3
      exact hcd ⟨h1, h2⟩
    rw [if_neg h, ih]
    simp [expandSpec, hcd]

theorem occurrences_cons_of_not (a : Char) (as : List Char)
    (h : ¬ strstr (a :: as) EXP = some 0) :
    occurrences (a :: as) = occurrences as := by
  cases as with
  | nil => simp [occurrences]
  | cons b bs =>
    have : ¬ (a = '$' ∧ b = '$') := by
      rintro ⟨h1, h2⟩
      exact h ((strstr_EXP_zero _).2 ⟨bs, by rw [h1, h2]⟩)
    simp [occurrences, this]

theorem countLoop_eq (s : List Char) :
    ∀ (n i c : Nat), s.length - i ≤ n → i ≤ s.length →
      countLoop s i c = (s.length, c + occurrences (s.drop i)) := by
  intro n
  induction n with
  | zero =>
    intro i c hn hi
    have : i = s.length := by omega
    subst this
    rw [countLoop]
    simp [occurrences]
  | succ n ih =>
    intro i c hn hi
    by_cases hlt : i < s.length
    · rw [countLoop, if_pos hlt]
      by_cases h : strstr (s.drop i) EXP = some 0
      · rw [if_pos h]
        obtain ⟨rest, hr⟩ := (strstr_EXP_zero _).1 h
        have hlen : (s.drop i).length = rest.length + 2 := by rw [hr]; simp
        rw [List.length_drop] at hlen
        have hd : s.drop (i + 1 + 1) = rest := by
          rw [← List.tail_drop, ← List.tail_drop, hr]; rfl
        rw [ih (i + 1 + 1) (c + 1) (by omega) (by omega), hd, hr]
        simp only [occurrences, and_self, if_true]
        congr 1
        omega
      · rw [if_neg h]
        rw [List.drop_eq_getElem_cons hlt] at h ⊢
        rw [ih (i + 1) c (by omega) (by omega), occurrences_cons_of_not _ _ h]
    · have : i = s.length := by omega
      subst this
      rw [countLoop]
      simp [occurrences]

theorem countLoop_zero (s : List Char) : countLoop s 0 0 = (s.length, occurrences s) := by
  rw [countLoop_eq s s.length 0 0 (by omega) (Nat.zero_le _)]
  simp

theorem expandSpec_length (pid : List Char) (s : List Char) :
    (expandSpec pid s).length + 2 * occurrences s = s.length + pid.length * occurrences s := by
  induction s using expandSpec.induct pid with
  | case1 => simp [expandSpec, occurrences]
  | case2 c => simp [expandSpec, occurrences]
  | case3 c d rest hcd ih =>
    simp only [expandSpec, occurrences, hcd, and_self, if_true, List.length_append,
      List.length_cons]
    rw [Nat.mul_add, Nat.mul_add]
    omega
  | case4 c d rest hcd ih =>
    simp only [expandSpec, occurrences, hcd, if_false, List.length_cons] at ih ⊢
    omega

theorem newStringLength_eq (processID : Nat) (s : List Char) :
    newStringLength processID s
      = (s.length : Int) + (((pidString processID).length : Int) - 2) * (occurrences s : Int) := by
  unfold newStringLength
  rw [countLoop_zero]

theorem copyLoop_length (processID : Nat) (s : List Char) :
    ((copyLoop (pidString processID) s []).length : Int) = newStringLength processID s := by
  rw [newStringLength_eq, copyLoop_eq, List.nil_append]
  have h := expandSpec_length (pidString processID) s
  have h2 : ((expandSpec (pidString processID) s).length : Int) + 2 * (occurrences s : Int)
      = (s.length : Int) + ((pidString processID).length : Int) * (occurrences s : Int) := by
    exact_mod_cast h
  linarith

/-- The expander never writes past its buffer, and its result is the expansion
of the specification with the pid string the code computed. -/
theorem expandInput_eq (processID : Nat) (s : List Char) :
    expandInput processID s = some (expandSpec (pidString processID) s) := by
  unfold expandInput
  simp only
  rw [if_pos (le_of_eq (copyLoop_length processID s)), copyLoop_eq, List.nil_append]

/-- For a process id of the range of `pid_t` the 11 characters that `snprintf`
may write hold the whole decimal form. -/
theorem pidString_eq (processID : Nat) (h : processID < 2 ^ 31) :
    pidString processID = (toString processID).toList := by
  have hlen : (Nat.toDigits 10 processID).length ≤ 11 := by
    unfold Nat.toDigits
    exact Nat.toDigitsCore_length 10 (by decide) _ _ 11 (by omega) (by decide)
  unfold pidString
  rw [List.take_of_length_le (by omega)]
  rfl

theorem expandSpec_dollars (pid : List Char) (rest : List Char)
    (hrest : rest.head? ≠ some '$') : ∀ k : Nat,
    expandSpec pid (List.replicate k '$' ++ rest)
      = repeatPid pid (k / 2) ++ (List.replicate (k % 2) '$' ++ expandSpec pid rest) := by
  intro k
  induction k using Nat.strong_induction_on with
  | _ k ih =>
    match k with
    | 0 => simp [repeatPid]
    | 1 =>
      cases rest with
      | nil => simp [repeatPid, expandSpec, List.replicate]
      | cons d r =>
        have hd : d ≠ '$' := by
          intro h; apply hrest; simp [h]
        simp [repeatPid, expandSpec, List.replicate, hd]
    | k + 2 =>
      have h1 : (k + 2) / 2 = k / 2 + 1 := by omega
      have h2 : (k + 2) % 2 = k % 2 := by omega
      rw [h1, h2, repeatPid, List.append_assoc, ← ih k (by omega)]
      simp [List.replicate, expandSpec]

/-! ## Reading a line -/

theorem expandSpec_cons_of_ne (pid : List Char) (c : Char) (rest : List Char)
    (hc : c ≠ '$') : expandSpec pid (c :: rest) = c :: expandSpec pid rest := by
  cases rest with
  | nil => simp [expandSpec]
  | cons d r => simp [expandSpec, hc]

theorem upToNewline_line (s : List Char) (hs : '\n' ∉ s) :
    upToNewline (s ++ ['\n']) = s ++ ['\n'] := by
  induction s with
  | nil => simp [upToNewline]
  | cons c s ih =>
    have hc : c ≠ '\n' := fun h => hs (by simp [h])
    have hs2 : '\n' ∉ s := fun h => hs (List.mem_cons_of_mem _ h)
    simp [upToNewline, hc, ih hs2]

theorem expandSpec_no_dollar (pid : List Char) (s : List Char) (hs : '$' ∉ s) :
    expandSpec pid s = s := by
  induction s with
  | nil => rfl
  | cons c s ih =>
    have hc : c ≠ '$' := fun h => hs (by simp [h])
    rw [expandSpec_cons_of_ne pid c s hc, ih (fun h => hs (List.mem_cons_of_mem _ h))]

/-- A line without newline, dollar sign or NUL in its body, ended by a
newline and short enough for the buffer: `getInput` returns it as it is, for
every process id. -/
theorem getInput_line (processID : Nat) (body : List Char) (hnl : '\n' ∉ body)
    (hdollar : '$' ∉ body) (hnul : '\x00' ∉ body)
    (hlen : body.length + 1 ≤ MAX_ARG_LENGTH - 1) :
    getInput processID (body ++ ['\n']) = some (body ++ ['\n']) := by
  have hd2 : '$' ∉ body ++ ['\n'] := by
    intro h
    rcases List.mem_append.1 h with h | h
    · exact hdollar h
    · simp at h
  have hz2 : ∀ c ∈ body ++ ['\n'], (c != '\x00') = true := by
    intro c hc
    rcases List.mem_append.1 hc with h | h
    · simp only [bne_iff_ne, ne_eq]
      intro h0
      exact hnul (h0 ▸ h)
    · simp only [List.mem_singleton] at h
      subst h
      decide
  unfold getInput fgets
  rw [expandInput_eq, upToNewline_line _ hnl, List.take_of_length_le (by simpa using hlen),
    List.takeWhile_eq_self_iff.2 hz2, expandSpec_no_dollar _ _ hd2]

/-- The line `getInput` returns is the line read, expanded. -/
theorem getInput_eq (processID : Nat) (stream : List Char) :
    getInput processID stream = some (expandedLine processID stream) := by
  unfold getInput expandedLine
  rw [expandInput_eq]

/-! ## C3: what the expander returns -/

/-- C3: for every line and every process id (of the range of `pid_t`),
`expandInput` returns the line with each non-overlapping occurrence of `$$`,
scanning left to right, replaced by the decimal string of the process id and
every other character copied; of a run of `k` dollar signs `k / 2` pairs are
replaced and, when `k` is odd, the last `$` is copied as it is. -/
theorem C3_expandInput_replaces_pairs (processID : Nat) (hpid : processID < 2 ^ 31)
    (s : List Char) :
    expandInput processID s = some (expandSpec (toString processID).toList s) ∧
    ∀ (k : Nat) (rest : List Char), rest.head? ≠ some '$' →
      expandInput processID (List.replicate k '$' ++ rest)
        = some (repeatPid (toString processID).toList (k / 2)
            ++ (List.replicate (k % 2) '$' ++ expandSpec (toString processID).toList rest)) := by
  refine ⟨?_, ?_⟩
  · rw [expandInput_eq, pidString_eq processID hpid]
  · intro k rest hrest
    rw [expandInput_eq, pidString_eq processID hpid, expandSpec_dollars _ _ hrest]

/-- C3 on `echo $$ $$` with process id 1234: the result is `echo 1234 1234`. -/
theorem C3_expandInput_replaces_pairs_witness :
    expandInput 1234 "echo $$ $$".toList = some "echo 1234 1234".toList :=
  (C3_expandInput_replaces_pairs 1234 (by decide) "echo $$ $$".toList).1.trans (by decide)

/-! ## C4: the length of the expansion and the size of the buffer -/

/-- C4: for every line, the counting pass finds the `k` non-overlapping
occurrences of `$$`, the length `newStringLength` computed from it equals the
number of characters the copying pass writes, and the length of the output is
the length of the input plus `k * (len(pidString) - 2)`. -/
theorem C4_expandInput_length (processID : Nat) (s : List Char) :
    (countLoop s 0 0).2 = occurrences s ∧
    newStringLength processID s = ((copyLoop (pidString processID) s []).length : Int) ∧
    (expandInput processID s).map (fun r => (r.length : Int))
      = some ((s.length : Int)
          + (occurrences s : Int) * (((pidString processID).length : Int) - 2)) := by
  refine ⟨by rw [countLoop_zero], (copyLoop_length processID s).symm, ?_⟩
  have h := copyLoop_length processID s
  rw [newStringLength_eq, copyLoop_eq, List.nil_append] at h
  rw [expandInput_eq, Option.map_some', h, mul_comm]

/-! ## C5: the background registry -/

theorem unlinkWalk_eq_erase (processId : Int) (l : List Int) :
    unlinkWalk processId l = l.erase processId := by
  induction l with
  | nil => rfl
  | cons a l ih =>
    by_cases h : a = processId
    · simp [unlinkWalk, h]
    · simp [unlinkWalk, h, List.erase_cons_tail, ih]

/-- A reap from a list with one node only: the notice is printed and the node
stays in the list. -/
theorem processCheck_single (pid status : Int) (hpid : 0 < pid) :
    processCheck [pid] pid status = ([pid], [statusBackground status pid]) := by
  simp [processCheck, hpid]

/-- A reap of a listed process from a list with at least two nodes: the notice
is printed and the first node holding the pid is unlinked. -/
theorem processCheck_erase (reg : List Int) (pid status : Int) (hpid : 0 < pid)
    (hlen : 2 ≤ reg.length) :
    processCheck reg pid status = (reg.erase pid, [statusBackground status pid]) := by
  match reg, hlen with
  | a :: b :: l, _ =>
    by_cases h : a = pid
    · simp [processCheck, hpid, h]
    · simp [processCheck, hpid, h, unlinkWalk_eq_erase, List.erase_cons_tail]

theorem launchAll_pidList (shellPid : Int) (pids : List Int) (hpos : ∀ p ∈ pids, 0 < p) :
    ∀ st : ShellState, st.foregroundOnlyMode = false →
      (launchAll shellPid pids st).pidList = pids.reverse ++ st.pidList := by
  induction pids with
  | nil => intro st _; rfl
  | cons p pids ih =>
    intro st hst
    have hp : 0 < p := hpos p (List.mem_cons_self _ _)
    have h1 : ¬ p = -1 := by omega
    have h2 : ¬ p = 0 := by omega
    simp only [launchAll, executeAsChild, sysForPid, h1, h2, if_false]
    rw [ih (fun q hq => hpos q (List.mem_cons_of_mem _ hq))]
    · simp [executeParent, overrideBkgrd, hst, bgCommand]
    · simp [executeParent, overrideBkgrd, hst, bgCommand]

theorem reapAll_cons (status pid : Int) (order reg : List Int) :
    reapAll status (pid :: order) reg
      = ((reapAll status order (processCheck reg pid status).1).1,
          (processCheck reg pid status).2
            ++ (reapAll status order (processCheck reg pid status).1).2) := rfl

/-- Whatever the order in which the listed processes end, one notice is printed
per reap, and the last process reaped is never unlinked: the list ends with
that one node. -/
theorem reapAll_leaves_last (status : Int) (order : List Int) :
    ∀ (reg : List Int) (hne : order ≠ []), (∀ p ∈ order, 0 < p) → reg.Perm order →
      reapAll status order reg
        = ([order.getLast hne], order.map (fun p => statusBackground status p)) := by
  induction order with
  | nil => intro reg hne; exact absurd rfl hne
  | cons q rest ih =>
    intro reg hne hpos hperm
    have hq : 0 < q := hpos q (List.mem_cons_self _ _)
    cases rest with
    | nil =>
      have hreg : reg = [q] := List.perm_singleton.1 hperm
      subst hreg
      simp [reapAll, processCheck_single q status hq]
    | cons q2 rest2 =>
      have hlen : 2 ≤ reg.length := by
        rw [hperm.length_eq]; simp
      have hperm2 : (reg.erase q).Perm (q2 :: rest2) := by
        have := hperm.erase q
        simpa using this
      have := ih (reg.erase q) (by simp) (fun p hp => hpos p (List.mem_cons_of_mem _ hp)) hperm2
      rw [reapAll_cons, processCheck_erase reg q status hq hlen]
      simp only [this]
      simp

/-- For every non-empty list of process ids launched in the background one
after another from the initial state, and every order in which they end and
are reaped one per `processCheck` call, the registry is not empty after the
last reap: the node of the last process reaped stays. -/
theorem registry_not_emptied (a b shellPid status : Int) (pids order : List Int)
    (hne : order ≠ []) (hpos : ∀ p ∈ pids, 0 < p) (hperm : order.Perm pids) :
    (reapAll status order (launchAll shellPid pids (initialState a b)).pidList).1
      = [order.getLast hne] := by
  rw [launchAll_pidList shellPid pids hpos _ rfl]
  have hperm2 : (pids.reverse ++ (initialState a b).pidList).Perm order := by
    simp only [initialState, List.append_nil]
    exact (List.reverse_perm pids).trans hperm.symm
  rw [reapAll_leaves_last status order _ hne
    (fun p hp => hpos p (hperm.mem_iff.1 hp)) hperm2]

/-- C5 at three background commands with process ids 101, 102, 103 launched in
sequence and ending in that order: three notices are printed, one per process,
and the registry still holds 103 after the last reap. -/
theorem C5_registry_keeps_last_reaped :
    reapAll 0 [101, 102, 103] (launchAll 1 [101, 102, 103] (initialState 0 0)).pidList
      = ([103],
         ["background pid 101 is done: exit value 0\n",
          "background pid 102 is done: exit value 0\n",
          "background pid 103 is done: exit value 0\n"]) := by
  decide

/-! ## C6: the mode signal and the background flag -/

theorem deliverSIGTSTP_mode (n : Nat) :
    ∀ st : ShellState,
      (deliverSIGTSTP n st).foregroundOnlyMode
        = (if n % 2 = 1 then !st.foregroundOnlyMode else st.foregroundOnlyMode) := by
  induction n with
  | zero => intro st; simp [deliverSIGTSTP]
  | succ n ih =>
    intro st
    rw [deliverSIGTSTP, ih]
    have hflip : (handleSIGTSTP st).1.foregroundOnlyMode = !st.foregroundOnlyMode := by
      unfold handleSIGTSTP
      cases h : st.foregroundOnlyMode <;> simp
    rw [hflip]
    rcases Nat.mod_two_eq_zero_or_one n with h | h
    · have h2 : (n + 1) % 2 = 1 := by omega
      simp [h, h2]
    · have h2 : ¬ (n + 1) % 2 = 1 := by omega
      simp [h, h2]

theorem overrideBkgrd_idem (m : Bool) (cmd : commandStruct) :
    overrideBkgrd m (overrideBkgrd m cmd) = overrideBkgrd m cmd := by
  cases m <;> simp [overrideBkgrd]

theorem overrideBkgrd_eq (m : Bool) (cmd : commandStruct) :
    overrideBkgrd m cmd = { cmd with bkgrdInd := cmd.bkgrdInd && !m } := by
  cases m <;> simp [overrideBkgrd]

/-- C6: from the initial state, after `n` deliveries of the signal the
foreground-only flag is true exactly when `n` is odd, and `executeAsChild`
called in that state runs the command, in the shell and in the new process,
with the background flag `requested && n even` in place of the requested one. -/
theorem C6_toggle_parity_and_override (n : Nat) (a b : Int) (cmd : commandStruct)
    (sys : SysResults) :
    (deliverSIGTSTP n (initialState a b)).foregroundOnlyMode = decide (n % 2 = 1) ∧
    (overrideBkgrd (deliverSIGTSTP n (initialState a b)).foregroundOnlyMode cmd).bkgrdInd
      = (cmd.bkgrdInd && decide (n % 2 = 0)) ∧
    executeAsChild cmd (deliverSIGTSTP n (initialState a b)) sys
      = (if sys.spawnPid = -1 then .forkFailed
         else if sys.spawnPid = 0 then
           .child (executeChild false
             { cmd with bkgrdInd := cmd.bkgrdInd && decide (n % 2 = 0) }
             sys.childFds sys.childSys sys.execOk)
         else
           .parent
             (executeParent { cmd with bkgrdInd := cmd.bkgrdInd && decide (n % 2 = 0) }
               (deliverSIGTSTP n (initialState a b)) sys).1
             (executeParent { cmd with bkgrdInd := cmd.bkgrdInd && decide (n % 2 = 0) }
               (deliverSIGTSTP n (initialState a b)) sys).2) := by
  have hmode : (deliverSIGTSTP n (initialState a b)).foregroundOnlyMode = decide (n % 2 = 1) := by
    rw [deliverSIGTSTP_mode]
    by_cases h : n % 2 = 1 <;> simp [h, initialState]
  have hflag : (!decide (n % 2 = 1)) = decide (n % 2 = 0) := by
    rcases Nat.mod_two_eq_zero_or_one n with h | h <;> simp [h]
  have hcmd : overrideBkgrd (decide (n % 2 = 1)) cmd
      = { cmd with bkgrdInd := cmd.bkgrdInd && decide (n % 2 = 0) } := by
    rw [overrideBkgrd_eq, hflag]
  refine ⟨hmode, ?_, ?_⟩
  · rw [hmode, hcmd]
  · unfold executeAsChild
    simp only [hmode]
    rw [hcmd]
    unfold executeChild
    rw [← hcmd, overrideBkgrd_idem]
    simp [overrideBkgrd]

/-! ## C7: the streams of a background command -/

theorem fdGet_fdSet_same (t : FdTable) : ∀ (fd : Nat) (f : Option OpenFile),
    fdGet (fdSet t fd f) fd = f := by
  induction t with
  | nil =>
    intro fd f
    induction fd with
    | zero => rfl
    | succ n ih => simpa [fdSet, fdGet] using ih
  | cons e t ih =>
    intro fd f
    cases fd with
    | zero => rfl
    | succ n => simpa [fdSet, fdGet] using ih n f

theorem fdGet_nil (fd : Nat) : fdGet [] fd = none := by
  cases fd <;> rfl

theorem fdGet_fdSet_other (t : FdTable) : ∀ (fd fd1 : Nat) (f : Option OpenFile),
    fd1 ≠ fd → fdGet (fdSet t fd f) fd1 = fdGet t fd1 := by
  induction t with
  | nil =>
    intro fd
    induction fd with
    | zero =>
      intro fd1 f h
      cases fd1 with
      | zero => exact absurd rfl h
      | succ m => simp [fdSet, fdGet, fdGet_nil]
    | succ n ih =>
      intro fd1 f h
      cases fd1 with
      | zero => simp [fdSet, fdGet]
      | succ m =>
        have := ih m f (by omega)
        simpa [fdSet, fdGet, fdGet_nil] using this
  | cons e t ih =>
    intro fd fd1 f h
    cases fd with
    | zero =>
      cases fd1 with
      | zero => exact absurd rfl h
      | succ m => rfl
    | succ n =>
      cases fd1 with
      | zero => rfl
      | succ m => simpa [fdSet, fdGet] using ih n m f (by omega)

/-- The descriptor a successful `open` returns was not open. -/
theorem fdGet_lowestFree (t : FdTable) : fdGet t (lowestFree t) = none := by
  induction t with
  | nil => rfl
  | cons e t ih =>
    cases e with
    | none => rfl
    | some f => simpa [lowestFree, fdGet] using ih

/-- A redirection of the input that succeeds leaves every descriptor other than
0 and the new one as it was, and binds descriptor 0 to the file opened. -/
theorem redirectInput_ok (cmd : commandStruct) (fds fds1 : FdTable) (sys : ChildSys)
    (h : redirectInput cmd fds sys = .ok fds1) :
    (cmd.bkgrdInd = true → cmd.inputRedir = none →
      fdGet fds1 0 = some { path := devNull, flags := .rdonly }) := by
  intro hbg hnone
  unfold redirectInput at h
  rw [if_pos (Or.inr hbg)] at h
  by_cases ho : sys.openInOk = true
  · by_cases hd : sys.dupInOk = true
    · simp only [ho, hd, if_true] at h
      injection h with h
      rw [← h, fdGet_fdSet_same, fdGet_fdSet_same]
      simp [hnone]
    · simp [ho, hd] at h
  · simp [ho] at h

/-- A redirection of the output that succeeds keeps descriptor 0 when it is
open, and binds descriptor 1 to `/dev/null` for a background command without
output path. -/
theorem redirectOutput_ok (cmd : commandStruct) (fds fds2 : FdTable) (sys : ChildSys)
    (h : redirectOutput cmd fds sys = .ok fds2) :
    (∀ f, fdGet fds 0 = some f → fdGet fds2 0 = some f) ∧
    (cmd.bkgrdInd = true → cmd.outputRedir = none →
      fdGet fds2 1 = some { path := devNull, flags := .wronlyCreatTrunc }) := by
  unfold redirectOutput at h
  by_cases hc : cmd.outputRedir ≠ none ∨ cmd.bkgrdInd = true
  · rw [if_pos hc] at h
    by_cases ho : sys.openOutOk = true
    · by_cases hd : sys.dupOutOk = true
      · simp only [ho, hd, if_true] at h
        injection h with h
        subst h
        refine ⟨?_, ?_⟩
        · intro f hf
          have hne : (0 : Nat) ≠ lowestFree fds := by
            intro h0
            have := fdGet_lowestFree fds
            rw [← h0, hf] at this
            cases this
          rw [fdGet_fdSet_other _ 1 0 _ (by decide), fdGet_fdSet_other _ _ 0 _ hne, hf]
        · intro _ hnone
          rw [fdGet_fdSet_same, fdGet_fdSet_same]
          simp [hnone]
      · simp [ho, hd] at h
    · simp [ho] at h
  · rw [if_neg hc] at h
    injection h with h
    subst h
    exact ⟨fun f hf => hf, fun hbg _ => absurd (Or.inr hbg) hc⟩

theorem redirectInput_error (cmd : commandStruct) (fds : FdTable) (sys : ChildSys)
    (e : ChildEnd) (h : redirectInput cmd fds sys = .error e) :
    ∃ out, e = .exited 1 out := by
  unfold redirectInput at h
  by_cases hc : cmd.inputRedir ≠ none ∨ cmd.bkgrdInd = true
  · rw [if_pos hc] at h
    by_cases ho : sys.openInOk = true
    · by_cases hd : sys.dupInOk = true
      · simp [ho, hd] at h
      · simp only [ho, hd, if_true] at h
        injection h with h
        exact ⟨_, h.symm⟩
    · simp only [ho] at h
      injection h with h
      exact ⟨_, h.symm⟩
  · rw [if_neg hc] at h
    cases h

theorem redirectOutput_error (cmd : commandStruct) (fds : FdTable) (sys : ChildSys)
    (e : ChildEnd) (h : redirectOutput cmd fds sys = .error e) :
    ∃ out, e = .exited 1 out := by
  unfold redirectOutput at h
  by_cases hc : cmd.outputRedir ≠ none ∨ cmd.bkgrdInd = true
  · rw [if_pos hc] at h
    by_cases ho : sys.openOutOk = true
    · by_cases hd : sys.dupOutOk = true
      · simp [ho, hd] at h
      · simp only [ho, hd, if_true] at h
        injection h with h
        exact ⟨_, h.symm⟩
    · simp only [ho] at h
      injection h with h
      exact ⟨_, h.symm⟩
  · rw [if_neg hc] at h
    cases h

/-- C7: for every command that `executeAsChild` runs in the background (the
background flag is still true after the override, and the new process reaches
`execvp`), the program starts with descriptor 0 opened read-only from
`/dev/null` if the command has no input path, and with descriptor 1 opened for
writing to `/dev/null` if it has no output path. -/
theorem C7_background_streams_devnull (cmd : commandStruct) (st : ShellState)
    (sys : SysResults) (command : List Char) (arguments : List (List Char))
    (fds : FdTable) (sigintDefault bkgrdInd : Bool)
    (hbg : (overrideBkgrd st.foregroundOnlyMode cmd).bkgrdInd = true)
    (hrun : executeAsChild cmd st sys
      = .child (.execvp command arguments fds sigintDefault bkgrdInd)) :
    (cmd.inputRedir = none → fdGet fds 0 = some { path := devNull, flags := .rdonly }) ∧
    (cmd.outputRedir = none →
      fdGet fds 1 = some { path := devNull, flags := .wronlyCreatTrunc }) := by
  unfold executeAsChild at hrun
  simp only at hrun
  split at hrun
  · cases hrun
  · split at hrun
    · injection hrun with hrun
      unfold executeChild at hrun
      rw [overrideBkgrd_idem] at hrun
      have hin : (overrideBkgrd st.foregroundOnlyMode cmd).inputRedir = cmd.inputRedir := by
        rw [overrideBkgrd_eq]
      have hout : (overrideBkgrd st.foregroundOnlyMode cmd).outputRedir = cmd.outputRedir := by
        rw [overrideBkgrd_eq]
      generalize overrideBkgrd st.foregroundOnlyMode cmd = c at hrun hbg hin hout
      dsimp only at hrun
      cases h1 : redirectInput c sys.childFds sys.childSys with
      | error e =>
        obtain ⟨out, he⟩ := redirectInput_error c _ _ e h1
        rw [h1, he] at hrun
        cases hrun
      | ok fds1 =>
        rw [h1] at hrun
        simp only at hrun
        cases h2 : redirectOutput c fds1 sys.childSys with
        | error e =>
          obtain ⟨out, he⟩ := redirectOutput_error c _ _ e h2
          rw [h2, he] at hrun
          cases hrun
        | ok fds2 =>
          rw [h2] at hrun
          simp only at hrun
          by_cases hx : sys.execOk = true
          · rw [if_pos hx] at hrun
            injection hrun with _ _ hfds _ _
            subst hfds
            have k1 := redirectInput_ok c _ _ _ h1
            have k2 := redirectOutput_ok c _ _ _ h2
            exact ⟨fun hn => k2.1 _ (k1 hbg (hin.trans hn)),
              fun hn => k2.2 hbg (hout.trans hn)⟩
          · rw [if_neg hx] at hrun
            cases hrun
    · cases hrun

/-- C7 on the background command `sleep 5 &` started from the terminal: the
program runs with descriptors 0 and 1 on `/dev/null`. -/
theorem C7_background_streams_devnull_witness :
    executeAsChild bgCommand (initialState 0 0) sysInChild
      = .child (.execvp "sleep".toList ["sleep".toList, "5".toList] bgFds false true) ∧
    fdGet bgFds 0 = some { path := devNull, flags := .rdonly } ∧
    fdGet bgFds 1 = some { path := devNull, flags := .wronlyCreatTrunc } :=
  ⟨by decide,
   (C7_background_streams_devnull bgCommand (initialState 0 0) sysInChild
      "sleep".toList ["sleep".toList, "5".toList] bgFds false true
      (by decide) (by decide)).1 rfl,
   (C7_background_streams_devnull bgCommand (initialState 0 0) sysInChild
      "sleep".toList ["sleep".toList, "5".toList] bgFds false true
      (by decide) (by decide)).2 rfl⟩

/-! ## C8: what `status` reports -/

theorem toString_natCast (c : Nat) : toString ((c : Nat) : Int) = toString c := rfl

theorem statusProcess_exitStatus (c : Nat) (hc : c ≤ 255) :
    statusProcess (exitStatus c) = "exit value " ++ toString c ++ "\n" := by
  have h1 : WIFEXITED (exitStatus c) = true := by
    simp only [WIFEXITED, exitStatus, beq_iff_eq]
    omega
  have h2 : WEXITSTATUS (exitStatus c) = (c : Int) := by
    simp only [WEXITSTATUS, exitStatus]
    omega
  rw [statusProcess, if_pos h1, h2, toString_natCast]

theorem statusProcess_signalStatus (n : Nat) (core : Bool) (h1 : 1 ≤ n) (h126 : n ≤ 126) :
    statusProcess (signalStatus n core) = "terminated by signal " ++ toString n ++ "\n" := by
  have h1 : ¬ WIFEXITED (signalStatus n core) = true := by
    simp only [WIFEXITED, signalStatus, beq_iff_eq]
    cases core <;> simp <;> omega
  have h2 : WTERMSIG (signalStatus n core) = (n : Int) := by
    simp only [WTERMSIG, signalStatus]
    cases core <;> simp <;> omega
  rw [statusProcess, if_neg h1, h2, toString_natCast]

/-- After a foreground command the stored status is the one `waitpid` gave. -/
theorem statusAfterCommand_foreground (cmd : commandStruct) (st : ShellState)
    (sys : SysResults) (hfork : 0 < sys.spawnPid)
    (hfg : (overrideBkgrd st.foregroundOnlyMode cmd).bkgrdInd = false) :
    statusAfterCommand cmd st sys = some (statusProcess sys.waitStatus) := by
  have h1 : ¬ sys.spawnPid = -1 := by omega
  have h2 : ¬ sys.spawnPid = 0 := by omega
  simp [statusAfterCommand, executeAsChild, executeParent, h1, h2, hfg]

/-- C8: with the POSIX/Linux encoding of the wait status, for every exit code
`c` in 0..255 the `status` built-in run after a foreground command that exited
with code `c` prints `exit value c`, and for every signal `n` in 1..126 (with
or without core dump) it prints `terminated by signal n` after a foreground
command killed by signal `n`; the line `status` is dispatched to that built-in. -/
theorem C8_status_reports_exit_or_signal (cmd : commandStruct) (st : ShellState)
    (sys : SysResults) (fresh : commandStruct) (hfork : 0 < sys.spawnPid)
    (hfg : (overrideBkgrd st.foregroundOnlyMode cmd).bkgrdInd = false) :
    dispatch (storedCommand fresh "status\n".toList) = .status ∧
    (∀ processID : Nat, mainDispatch processID fresh "status\n".toList = some .status) ∧
    (∀ c : Nat, c ≤ 255 →
      statusAfterCommand cmd st { sys with waitStatus := exitStatus c }
        = some ("exit value " ++ toString c ++ "\n")) ∧
    (∀ (n : Nat) (core : Bool), 1 ≤ n → n ≤ 126 →
      statusAfterCommand cmd st { sys with waitStatus := signalStatus n core }
        = some ("terminated by signal " ++ toString n ++ "\n")) := by
  refine ⟨?_, ?_, ?_, ?_⟩
  · rw [storedCommand_eq]
    rfl
  · intro processID
    have h := getInput_line processID "status".toList (by decide) (by decide) (by decide)
      (by decide)
    have h2 : "status\n".toList = "status".toList ++ ['\n'] := rfl
    unfold mainDispatch
    rw [h2, h]
    simp only
    rw [processInput_eq]
    rfl
  · intro c hc
    rw [statusAfterCommand_foreground cmd st { sys with waitStatus := exitStatus c } hfork hfg,
      statusProcess_exitStatus c hc]
  · intro n core h1 h126
    rw [statusAfterCommand_foreground cmd st { sys with waitStatus := signalStatus n core }
      hfork hfg, statusProcess_signalStatus n core h1 h126]

/-- C8 at exit code 3 and at signal 9: `exit value 3` and
`terminated by signal 9`. -/
theorem C8_status_reports_exit_or_signal_witness :
    statusAfterCommand fgCommand (initialState 0 0)
        { sysForPid 77 1 with waitStatus := exitStatus 3 } = some "exit value 3\n" ∧
    statusAfterCommand fgCommand (initialState 0 0)
        { sysForPid 77 1 with waitStatus := signalStatus 9 false }
      = some "terminated by signal 9\n" :=
  ⟨((C8_status_reports_exit_or_signal fgCommand (initialState 0 0) (sysForPid 77 1)
      zeroedBlock (by decide) (by decide)).2.2.1 3 (by decide)).trans (by decide),
   ((C8_status_reports_exit_or_signal fgCommand (initialState 0 0) (sysForPid 77 1)
      zeroedBlock (by decide) (by decide)).2.2.2 9 false (by decide) (by decide)).trans
      (by decide)⟩

/-! ## C9: blank lines and comment lines -/

theorem tokens_nil_iff_firstChar (s : List Char) : tokens s = [] ↔ firstChar s = none := by
  unfold firstChar
  rw [← tokens_dropDelims]
  cases hd : s.dropWhile isDelim with
  | nil => simp [tokens, tokensAux]
  | cons c cs =>
    rw [tokens_cons_nondelim c cs (head_dropDelims s c cs hd)]
    simp

theorem firstChar_of_tokens_cons (s t : List Char) (ts : List (List Char))
    (h : tokens s = t :: ts) : firstChar s = t.head? ∧ t ≠ [] := by
  unfold firstChar
  rw [← tokens_dropDelims] at h
  cases hd : s.dropWhile isDelim with
  | nil => rw [hd] at h; cases h
  | cons c cs =>
    have hc := head_dropDelims s c cs hd
    rw [hd, tokens_cons_nondelim c cs hc] at h
    injection h with h1 _
    rw [← h1]
    simp [List.takeWhile, hc]

theorem tokens_head_of_firstChar (s : List Char) (c : Char) (h : firstChar s = some c) :
    ∃ t ts, tokens s = (c :: t) :: ts := by
  cases ht : tokens s with
  | nil => rw [(tokens_nil_iff_firstChar s).1 ht] at h; cases h
  | cons t ts =>
    obtain ⟨h1, h2⟩ := firstChar_of_tokens_cons s t ts ht
    rw [h1] at h
    cases t with
    | nil => exact absurd rfl h2
    | cons a t1 =>
      simp only [List.head?_cons, Option.some.injEq] at h
      exact ⟨t1, ts, by rw [h]⟩

/-- The expansion keeps the first character of the first token when that
character is not a dollar sign, and keeps a line without token as it is. -/
theorem firstChar_expandSpec (pid : List Char) (s : List Char)
    (h : firstChar s ≠ some '$') : firstChar (expandSpec pid s) = firstChar s := by
  induction s with
  | nil => rfl
  | cons c rest ih =>
    by_cases hd : isDelim c = true
    · have hc : c ≠ '$' := by
        intro h0; rw [h0] at hd; exact absurd hd (by decide)
      have hrest : firstChar rest ≠ some '$' := by
        simpa [firstChar, List.dropWhile, hd] using h
      rw [expandSpec_cons_of_ne pid c rest hc]
      simpa [firstChar, List.dropWhile, hd] using ih hrest
    · have hc : c ≠ '$' := by
        intro h0
        apply h
        subst h0
        rfl
      rw [expandSpec_cons_of_ne pid c rest hc]
      simp [firstChar, List.dropWhile, hd]

/-- A line without token is not dispatched. -/
theorem dispatch_blank (fresh : commandStruct) (input : List Char)
    (h : tokens input = []) :
    processInput fresh input = .null ∧ dispatch none = .skip := by
  rw [processInput_eq, h]
  exact ⟨rfl, rfl⟩

/-- A line whose first token begins with `#` and whose entries fit the array is
parsed into a command named by that token, and is not dispatched. -/
theorem dispatch_comment (fresh : commandStruct) (input : List Char)
    (t : List Char) (ts : List (List Char)) (h : tokens input = ('#' :: t) :: ts)
    (hfit : argCount (tokens input) < MAX_ARGS) :
    ∃ c, processInput fresh input = .command c ∧ c.command = '#' :: t ∧
      dispatch (some c) = .skip := by
  rw [h] at hfit
  obtain ⟨c, h1, h2, _, _⟩ := processInput_command_arguments fresh input _ ts h hfit
  refine ⟨c, h1, h2, ?_⟩
  simp [dispatch, h2, COMMENT]

/-- C9 at the line `# hello`: the parser returns a command, named `#`, with the
arguments `#` and `hello`; it does not return "no command". -/
theorem C9_comment_line_is_parsed_to_a_command :
    processInput zeroedBlock "# hello\n".toList
      = .command { command := "#".toList, arguments := ["#".toList, "hello".toList],
                   inputRedir := none, outputRedir := none, bkgrdInd := false } ∧
    processInput zeroedBlock "# hello\n".toList ≠ .null := by
  have h : processInput zeroedBlock "# hello\n".toList
      = .command { command := "#".toList, arguments := ["#".toList, "hello".toList],
                   inputRedir := none, outputRedir := none, bkgrdInd := false } := by
    rw [processInput_eq]
    rfl
  exact ⟨h, by rw [h]; simp⟩

/-- C9, amended: for every line read that is blank (no token) or a comment (its
first token begins with `#`), and whose entries fit the array `arguments`, one
iteration of the loop of `main` runs no built-in and does not call
`executeAsChild`; parsing the expanded blank line gives `NULL`, and parsing the
expanded comment line gives a command whose name is the first token of the
expanded line, which begins with `#` and which the loop screens out. -/
theorem C9_blank_or_comment_not_dispatched (processID : Nat) (fresh : commandStruct)
    (stream : List Char)
    (hline : tokens (fgets MAX_ARG_LENGTH stream) = [] ∨
      ∃ t ts, tokens (fgets MAX_ARG_LENGTH stream) = ('#' :: t) :: ts)
    (hfit : argCount (tokens (expandedLine processID stream)) < MAX_ARGS) :
    getInput processID stream = some (expandedLine processID stream) ∧
    mainDispatch processID fresh stream = some .skip ∧
    (tokens (fgets MAX_ARG_LENGTH stream) = [] →
      processInput fresh (expandedLine processID stream) = .null) ∧
    ((∃ t ts, tokens (fgets MAX_ARG_LENGTH stream) = ('#' :: t) :: ts) →
      (processInput fresh (expandedLine processID stream)).commandName
          = (tokens (expandedLine processID stream)).head? ∧
      (tokens (expandedLine processID stream)).head?.bind List.head? = some '#') := by
  have hblank : tokens (fgets MAX_ARG_LENGTH stream) = [] →
      tokens (expandedLine processID stream) = [] := by
    intro h
    have h0 := (tokens_nil_iff_firstChar _).1 h
    unfold expandedLine
    rw [tokens_nil_iff_firstChar, firstChar_expandSpec _ _ (by rw [h0]; simp), h0]
  have hcomment : (∃ t ts, tokens (fgets MAX_ARG_LENGTH stream) = ('#' :: t) :: ts) →
      ∃ t ts, tokens (expandedLine processID stream) = ('#' :: t) :: ts := by
    rintro ⟨t, ts, h⟩
    have h0 := (firstChar_of_tokens_cons _ _ _ h).1
    simp only [List.head?_cons] at h0
    apply tokens_head_of_firstChar
    unfold expandedLine
    rw [firstChar_expandSpec _ _ (by rw [h0]; decide), h0]
  refine ⟨getInput_eq processID stream, ?_, ?_, ?_⟩
  · unfold mainDispatch
    rw [getInput_eq]
    simp only
    rcases hline with h | h
    · rw [(dispatch_blank fresh _ (hblank h)).1]
      rfl
    · obtain ⟨t, ts, h1⟩ := hcomment h
      obtain ⟨c, hc, _, hskip⟩ := dispatch_comment fresh _ t ts h1 hfit
      rw [hc]
      simp only [hskip]
  · intro h
    exact (dispatch_blank fresh _ (hblank h)).1
  · intro h
    obtain ⟨t, ts, h1⟩ := hcomment h
    obtain ⟨c, hc, hname, _⟩ := dispatch_comment fresh _ t ts h1 hfit
    rw [hc, h1]
    simp [Parsed.commandName, hname]

/-- C9, amended, on the lines `# hello $$` and on a line of spaces: neither is
dispatched. -/
theorem C9_blank_or_comment_not_dispatched_witness :
    mainDispatch 1234 staleBlock "# hello $$\n".toList = some .skip ∧
    mainDispatch 1234 staleBlock "   \n".toList = some .skip :=
  ⟨(C9_blank_or_comment_not_dispatched 1234 staleBlock "# hello $$\n".toList
      (Or.inr ⟨[], ["hello".toList, "$$".toList], by decide⟩) (by decide)).2.1,
   (C9_blank_or_comment_not_dispatched 1234 staleBlock "   \n".toList
      (Or.inl (by decide)) (by decide)).2.1⟩

/-! ## C1 and C10: the number of arguments -/

theorem tokensAux_word (w rest : List Char) (hw : ∀ c ∈ w, isDelim c = false) :
    ∀ cur : List Char, cur.reverse ++ w ≠ [] →
      tokensAux (w ++ ' ' :: rest) cur = (cur.reverse ++ w) :: tokensAux rest [] := by
  induction w with
  | nil =>
    intro cur hne
    have hcur : cur ≠ [] := by simpa using hne
    have hsp : isDelim ' ' = true := by decide
    simp [tokensAux, hsp, hcur]
  | cons c w ih =>
    intro cur _
    have hc : isDelim c = false := hw c (List.mem_cons_self _ _)
    have := ih (fun x hx => hw x (List.mem_cons_of_mem _ hx)) (c :: cur) (by simp)
    simp only [List.cons_append, tokensAux, hc]
    simpa using this

theorem tokens_repeatWord_append (w tail : List Char) (hw : ∀ c ∈ w, isDelim c = false)
    (hne : w ≠ []) :
    ∀ n : Nat, tokens (repeatWord w n ++ tail) = List.replicate n w ++ tokens tail := by
  intro n
  induction n with
  | zero => rfl
  | succ n ih =>
    unfold tokens at ih ⊢
    rw [repeatWord, List.append_assoc, List.cons_append,
      tokensAux_word w _ hw [] (by simpa using hne), ih]
    simp [List.replicate]

theorem repeatWord_length (w : List Char) (n : Nat) :
    (repeatWord w n).length = n * (w.length + 1) := by
  induction n with
  | zero => simp [repeatWord]
  | succ n ih =>
    simp only [repeatWord, List.length_append, List.length_cons, ih]
    rw [Nat.succ_mul]
    omega

theorem mem_repeatWord (w : List Char) (n : Nat) (c : Char) (h : c ∈ repeatWord w n) :
    c ∈ w ∨ c = ' ' := by
  induction n with
  | zero => cases h
  | succ n ih =>
    simp only [repeatWord, List.mem_append, List.mem_cons] at h
    rcases h with h | h | h
    · exact Or.inl h
    · exact Or.inr h
    · exact ih h

/-- A line of `n` words `a`, each followed by a space, and a newline: when it
has at most 2047 characters `getInput` returns it as it is, for every process
id. -/
theorem getInput_repeatWord (processID : Nat) (n : Nat) (hn : 2 * n + 1 ≤ MAX_ARG_LENGTH - 1) :
    getInput processID (repeatWord ['a'] n ++ ['\n']) = some (repeatWord ['a'] n ++ ['\n']) := by
  have hmem : ∀ c ∈ repeatWord ['a'] n, c = 'a' ∨ c = ' ' := by
    intro c hc
    rcases mem_repeatWord _ _ _ hc with h | h
    · exact Or.inl (by simpa using h)
    · exact Or.inr h
  have hno : ∀ x : Char, x ≠ 'a' → x ≠ ' ' → x ∉ repeatWord ['a'] n := by
    intro x h1 h2 h
    rcases hmem _ h with h | h
    · exact h1 h
    · exact h2 h
  refine getInput_line processID _ (hno _ (by decide) (by decide))
    (hno _ (by decide) (by decide)) (hno _ (by decide) (by decide)) ?_
  rw [repeatWord_length]
  simp only [List.length_cons, List.length_nil]
  omega

/-- A line of `n + 1` words `a` makes the parser store `n + 1` entries,
whatever `n`: the parser checks no bound. -/
theorem storedCommand_repeatWord_arguments (fresh : commandStruct) (n : Nat) :
    (storedCommand fresh (repeatWord ['a'] (n + 1) ++ ['\n'])).map
        (fun c => c.arguments.length) = some (n + 1) := by
  have hw : ∀ c ∈ ['a'], isDelim c = false := by
    intro c hc
    simp only [List.mem_singleton] at hc
    subst hc
    decide
  have hnl : tokens ['\n'] = [] := by decide
  rw [storedCommand_eq, tokens_repeatWord_append ['a'] _ hw (by simp), hnl, List.append_nil]
  simp only [List.replicate, Option.map_some', opTokens_arguments, List.length_cons]
  have hall : (List.replicate n ['a']).takeWhile (fun x => !isOperator x)
      = List.replicate n ['a'] := by
    rw [List.takeWhile_eq_self_iff]
    intro x hx
    rw [List.eq_of_mem_replicate hx]
    decide
  rw [hall, List.length_replicate]

/-- The number of entries stored for `n + 1` words `a` followed by the tokens
`tail`, the first of which is an operator. -/
theorem argCount_repeatWord (n : Nat) (op : List Char) (rest : List (List Char))
    (hop : isOperator op = true) :
    argCount (List.replicate (n + 1) ['a'] ++ op :: rest) = n + 1 := by
  have hws : ∀ w ∈ List.replicate n ['a'], isOperator w = false := by
    intro w hw
    rw [List.eq_of_mem_replicate hw]
    decide
  simp only [List.replicate, List.cons_append, argCount]
  rw [(takeWhile_words_operator _ rest op hws hop).1, List.length_replicate]

/-- C1 at the line of 512 one-letter words `a` followed by `< in.txt` (1033
characters, which `getInput` reads and returns whole): the parser stores the
512 words in `arguments[0..511]` and the terminating `NULL` at
`arguments[512]`, outside the array of 512 slots, where the struct keeps
`inputRedir`; `processInput` does not return the command with exactly these
512 arguments that the claim describes. -/
theorem C1_arguments_overrun_before_redirect :
    (repeatWord ['a'] 512 ++ "< in.txt\n".toList).length = 1033 ∧
    getInput 1234 (repeatWord ['a'] 512 ++ "< in.txt\n".toList)
      = some (repeatWord ['a'] 512 ++ "< in.txt\n".toList) ∧
    tokens (repeatWord ['a'] 512 ++ "< in.txt\n".toList)
      = List.replicate 512 ['a'] ++ ["<".toList, "in.txt".toList] ∧
    argCount (tokens (repeatWord ['a'] 512 ++ "< in.txt\n".toList)) = MAX_ARGS ∧
    processInput zeroedBlock (repeatWord ['a'] 512 ++ "< in.txt\n".toList)
      = .outOfBounds MAX_ARGS := by
  have hw : ∀ c ∈ ['a'], isDelim c = false := by
    intro c hc
    simp only [List.mem_singleton] at hc
    subst hc
    decide
  have htok : tokens (repeatWord ['a'] 512 ++ "< in.txt\n".toList)
      = List.replicate 512 ['a'] ++ ["<".toList, "in.txt".toList] := by
    rw [tokens_repeatWord_append ['a'] _ hw (by simp)]
    have : tokens "< in.txt\n".toList = ["<".toList, "in.txt".toList] := by decide
    rw [this]
  have hcount : argCount (tokens (repeatWord ['a'] 512 ++ "< in.txt\n".toList)) = MAX_ARGS := by
    rw [htok]
    exact argCount_repeatWord 511 "<".toList ["in.txt".toList] (by decide)
  refine ⟨?_, ?_, htok, hcount, ?_⟩
  · rw [List.length_append, repeatWord_length]
    decide
  · have hmem : ∀ c ∈ repeatWord ['a'] 512 ++ "< in.txt".toList,
        c = 'a' ∨ c = ' ' ∨ c ∈ "< in.txt".toList := by
      intro c hc
      rcases List.mem_append.1 hc with h | h
      · rcases mem_repeatWord _ _ _ h with h | h
        · exact Or.inl (by simpa using h)
        · exact Or.inr (Or.inl h)
      · exact Or.inr (Or.inr h)
    have hno : ∀ x : Char, x ≠ 'a' → x ≠ ' ' → x ∉ "< in.txt".toList →
        x ∉ repeatWord ['a'] 512 ++ "< in.txt".toList := by
      intro x h1 h2 h3 h
      rcases hmem _ h with h | h | h
      · exact h1 h
      · exact h2 h
      · exact h3 h
    have hline : repeatWord ['a'] 512 ++ "< in.txt\n".toList
        = (repeatWord ['a'] 512 ++ "< in.txt".toList) ++ ['\n'] := by
      rw [List.append_assoc]
      rfl
    rw [hline]
    refine getInput_line 1234 _ (hno _ (by decide) (by decide) (by decide))
      (hno _ (by decide) (by decide) (by decide))
      (hno _ (by decide) (by decide) (by decide)) ?_
    rw [List.length_append, repeatWord_length]
    decide
  · have hrep : List.replicate 512 ['a'] ++ ["<".toList, "in.txt".toList]
        = ['a'] :: (List.replicate 511 ['a'] ++ ["<".toList, "in.txt".toList]) := rfl
    have hnot : ¬ argCount (['a'] :: (List.replicate 511 ['a']
        ++ ["<".toList, "in.txt".toList])) < MAX_ARGS := by
      rw [← hrep, ← htok, hcount]
      exact Nat.lt_irrefl _
    rw [processInput_eq, htok, hrep]
    simp only
    rw [if_neg hnot]

/-- C10 at the line of 513 one-letter words `a`, each followed by a space, and
a newline (1027 characters): `getInput` reads and returns the whole line, and
the parser stores 513 entries for it, so it wrote `arguments[512]` and the
terminating `NULL` at `arguments[513]`, past the 512 slots of the array. -/
theorem C10_arguments_exceed_MAX_ARGS :
    (repeatWord ['a'] 513 ++ ['\n']).length ≤ MAX_ARG_LENGTH - 1 ∧
    getInput 1234 (repeatWord ['a'] 513 ++ ['\n']) = some (repeatWord ['a'] 513 ++ ['\n']) ∧
    (storedCommand zeroedBlock (repeatWord ['a'] 513 ++ ['\n'])).map
        (fun c => c.arguments.length) = some 513 ∧
    ¬ 513 ≤ MAX_ARGS ∧
    processInput zeroedBlock (repeatWord ['a'] 513 ++ ['\n']) = .outOfBounds MAX_ARGS := by
  have h513 := storedCommand_repeatWord_arguments zeroedBlock 512
  refine ⟨?_, getInput_repeatWord 1234 513 (by decide), h513, by decide, ?_⟩
  · rw [List.length_append, repeatWord_length]
    decide
  · unfold processInput
    cases hc : storedCommand zeroedBlock (repeatWord ['a'] 513 ++ ['\n']) with
    | none => rw [hc] at h513; cases h513
    | some c =>
      rw [hc] at h513
      simp only [Option.map_some', Option.some.injEq] at h513
      have : ¬ c.arguments.length < MAX_ARGS := by
        rw [h513]; decide
      simp only [this, if_false]

/-! ## C11: what a background launch changes in the shell -/

/-- C11: for every state of the shell and every command that `executeAsChild`
launches in the background (`fork` succeeded and the background flag is still
true after the override), the state of the shell afterwards has the stored
status unchanged (so `status` reports the same), the last foreground pid equal
to the pid of the shell, and the list of background pids made of the new
child's pid put before all the pids listed before, none of which is lost. -/
theorem C11_background_launch_frame (cmd : commandStruct) (st : ShellState)
    (sys : SysResults) (hfork : 0 < sys.spawnPid)
    (hbg : (overrideBkgrd st.foregroundOnlyMode cmd).bkgrdInd = true) :
    executeAsChild cmd st sys
      = .parent
          { foregroundOnlyMode := st.foregroundOnlyMode
            childStatus := st.childStatus
            lastForegroundPid := sys.shellPid
            pidList := sys.spawnPid :: st.pidList }
          ["background pid is " ++ toString sys.spawnPid ++ " \n"] ∧
    statusAfterCommand cmd st sys = some (statusProcess st.childStatus) ∧
    (∀ p ∈ st.pidList, p ∈ sys.spawnPid :: st.pidList) := by
  have h1 : ¬ sys.spawnPid = -1 := by omega
  have h2 : ¬ sys.spawnPid = 0 := by omega
  refine ⟨?_, ?_, fun p hp => List.mem_cons_of_mem _ hp⟩
  · simp [executeAsChild, executeParent, h1, h2, hbg]
  · simp [statusAfterCommand, executeAsChild, executeParent, h1, h2, hbg]

/-- C11 on the command `sleep 5 &` launched as process 103 by the shell of pid
1, with 102 and 101 already listed and the status of an exit with code 3
stored: the status stays, the last foreground pid becomes 1 and 103 is put
before 102 and 101. -/
theorem C11_background_launch_frame_witness :
    executeAsChild bgCommand
        { foregroundOnlyMode := false, childStatus := 768, lastForegroundPid := 42,
          pidList := [102, 101] } (sysForPid 103 1)
      = .parent
          { foregroundOnlyMode := false, childStatus := 768, lastForegroundPid := 1,
            pidList := [103, 102, 101] }
          ["background pid is 103 \n"] :=
  ((C11_background_launch_frame bgCommand
      { foregroundOnlyMode := false, childStatus := 768, lastForegroundPid := 42,
        pidList := [102, 101] } (sysForPid 103 1) (by decide) (by decide)).1).trans
    (by decide)

/-! ## C12: tokens the operator loop passes over -/

/-- After a foreground child the shell prints the notice exactly when the
status `waitpid` stored equals 2, and the number printed is that status. -/
theorem shellOutput_foreground (cmd : commandStruct) (st : ShellState) (sys : SysResults)
    (hfork : 0 < sys.spawnPid)
    (hfg : (overrideBkgrd st.foregroundOnlyMode cmd).bkgrdInd = false) :
    shellOutput cmd st sys
      = some (if sys.waitStatus = 2 then
          ["terminated by signal " ++ toString sys.waitStatus ++ "\n"] else []) := by
  have h1 : ¬ sys.spawnPid = -1 := by omega
  have h2 : ¬ sys.spawnPid = 0 := by omega
  simp [shellOutput, executeAsChild, executeParent, h1, h2, hfg]

/-- The wait status 130 (signal 2 with the core-dump bit) would get no notice.
No completed child has this status: the bit is set only by signals whose
action dumps core, and the action of signal 2 (`SIGINT`) is to end the process
without a dump. -/
theorem status_130_gets_no_notice :
    signalStatus 2 true = 130 ∧
    shellOutput fgCommand (initialState 0 0)
        { sysForPid 77 1 with waitStatus := signalStatus 2 true } = some [] := by
  decide

/-- C13: with the POSIX/Linux encoding of the wait status, for every wait status
of a completed foreground child (an exit with a code `c` in 0..255, or a kill
by a signal `n` in 1..126 with the core-dump bit set or clear, the bit being
clear for signal 2, which dumps no core), `executeAsChild` prints the notice
`terminated by signal N` if and only if the status says the child was killed by
signal 2, and the `N` printed is the terminating signal of the status; it
prints nothing for a child that exited normally, with code 2 or any other, or
was killed by another signal. -/
theorem C13_notice_iff_killed_by_signal_2 (cmd : commandStruct) (st : ShellState)
    (sys : SysResults) (hfork : 0 < sys.spawnPid)
    (hfg : (overrideBkgrd st.foregroundOnlyMode cmd).bkgrdInd = false) :
    (∀ c : Nat, c ≤ 255 →
      WIFEXITED (exitStatus c) = true ∧
      shellOutput cmd st { sys with waitStatus := exitStatus c } = some []) ∧
    (∀ (n : Nat) (core : Bool), 1 ≤ n → n ≤ 126 → (n = 2 → core = false) →
      WIFEXITED (signalStatus n core) = false ∧
      WTERMSIG (signalStatus n core) = (n : Int) ∧
      shellOutput cmd st { sys with waitStatus := signalStatus n core }
        = some (if WTERMSIG (signalStatus n core) = 2 then
            ["terminated by signal " ++ toString (WTERMSIG (signalStatus n core)) ++ "\n"]
          else [])) := by
  refine ⟨?_, ?_⟩
  · intro c hc
    refine ⟨?_, ?_⟩
    · simp only [WIFEXITED, exitStatus, beq_iff_eq]
      omega
    · rw [shellOutput_foreground cmd st { sys with waitStatus := exitStatus c } hfork hfg]
      have : ¬ exitStatus c = 2 := by
        unfold exitStatus; omega
      simp [this]
  · intro n core h1 h126 hcore
    have hterm : WTERMSIG (signalStatus n core) = (n : Int) := by
      simp only [WTERMSIG, signalStatus]
      cases core <;> simp <;> omega
    refine ⟨?_, hterm, ?_⟩
    · have : ¬ WIFEXITED (signalStatus n core) = true := by
        simp only [WIFEXITED, signalStatus, beq_iff_eq]
        cases core <;> simp <;> omega
      simpa using this
    · rw [shellOutput_foreground cmd st { sys with waitStatus := signalStatus n core }
        hfork hfg, hterm]
      by_cases hn : n = 2
      · subst hn
        have hc := hcore rfl
        subst hc
        rfl
      · have h2 : ¬ signalStatus n core = 2 := by
          unfold signalStatus
          cases core
          · simp only [Bool.false_eq_true, if_false, add_zero]
            omega
          · simp only [if_true]; omega
        have h3 : ¬ (n : Int) = 2 := by omega
        simp [h2, h3]

/-- C13 on a foreground `ls`: killed by signal 2 it gets the notice
`terminated by signal 2`; exited with code 2, or killed by signal 9, it gets
none. -/
theorem C13_notice_iff_killed_by_signal_2_witness :
    shellOutput fgCommand (initialState 0 0)
        { sysForPid 77 1 with waitStatus := signalStatus 2 false }
      = some ["terminated by signal 2\n"] ∧
    shellOutput fgCommand (initialState 0 0)
        { sysForPid 77 1 with waitStatus := exitStatus 2 } = some [] ∧
    shellOutput fgCommand (initialState 0 0)
        { sysForPid 77 1 with waitStatus := signalStatus 9 false } = some [] :=
  ⟨((C13_notice_iff_killed_by_signal_2 fgCommand (initialState 0 0) (sysForPid 77 1)
      (by decide) (by decide)).2 2 false (by decide) (by decide) (by decide)).2.2.trans
      (by decide),
   ((C13_notice_iff_killed_by_signal_2 fgCommand (initialState 0 0) (sysForPid 77 1)
      (by decide) (by decide)).1 2 (by decide)).2,
   ((C13_notice_iff_killed_by_signal_2 fgCommand (initialState 0 0) (sysForPid 77 1)
      (by decide) (by decide)).2 9 false (by decide) (by decide) (by decide)).2.2.trans
      (by decide)⟩

/-! ## C14: the expansion holds no `$$` -/

theorem digitChar_ne_dollar (m : Nat) : Nat.digitChar m ≠ '$' := by
  by_cases h : m < 16
  · interval_cases m <;> decide
  · unfold Nat.digitChar
    repeat rw [if_neg (by omega)]
    decide

theorem toDigitsCore_no_dollar (fuel : Nat) :
    ∀ (n : Nat) (acc : List Char), (∀ c ∈ acc, c ≠ '$') →
      ∀ c ∈ Nat.toDigitsCore 10 fuel n acc, c ≠ '$' := by
  induction fuel with
  | zero => intro n acc hacc c hc; exact hacc c (by simpa [Nat.toDigitsCore] using hc)
  | succ fuel ih =>
    intro n acc hacc c hc
    have hacc2 : ∀ c ∈ Nat.digitChar (n % 10) :: acc, c ≠ '$' := by
      intro d hd
      rcases List.mem_cons.1 hd with h | h
      · rw [h]; exact digitChar_ne_dollar _
      · exact hacc d h
    simp only [Nat.toDigitsCore] at hc
    split at hc
    · exact hacc2 c hc
    · exact ih _ _ hacc2 c hc

/-- The pid string is made of digits: it holds no dollar sign. -/
theorem pidString_no_dollar (processID : Nat) : ∀ c ∈ pidString processID, c ≠ '$' := by
  intro c hc
  unfold pidString at hc
  have hc2 := List.mem_of_mem_take hc
  exact toDigitsCore_no_dollar _ _ [] (by simp) c hc2

theorem EXP_prefix_iff (l : List Char) : EXP <+: l ↔ ∃ rest, l = '$' :: '$' :: rest := by
  constructor
  · rintro ⟨t, ht⟩
    exact ⟨t, ht.symm⟩
  · rintro ⟨rest, hr⟩
    exact ⟨rest, hr.symm⟩

theorem no_EXP_append (pid t : List Char) (hpid : ∀ c ∈ pid, c ≠ '$')
    (ht : ¬ EXP <:+: t) : ¬ EXP <:+: (pid ++ t) := by
  induction pid with
  | nil => simpa using ht
  | cons a r ih =>
    rw [List.cons_append, List.infix_cons_iff]
    rintro (h | h)
    · obtain ⟨rest, hr⟩ := (EXP_prefix_iff _).1 h
      injection hr with h1 _
      exact hpid a (List.mem_cons_self _ _) h1
    · exact ih (fun c hc => hpid c (List.mem_cons_of_mem _ hc)) h

/-- The expansion with a string that holds no dollar sign holds no `$$`. -/
theorem expandSpec_no_EXP (pid : List Char) (hpid : ∀ c ∈ pid, c ≠ '$') (s : List Char) :
    ¬ EXP <:+: expandSpec pid s := by
  induction s using expandSpec.induct pid with
  | case1 =>
    rintro ⟨a, b, h⟩
    have := congrArg List.length h
    simp [expandSpec, EXP] at this
  | case2 c =>
    rintro ⟨a, b, h⟩
    have := congrArg List.length h
    simp [expandSpec, EXP] at this
    omega
  | case3 c d rest hcd ih =>
    simp only [expandSpec, hcd, and_self, if_true]
    exact no_EXP_append pid _ hpid ih
  | case4 c d rest hcd ih =>
    simp only [expandSpec, hcd, if_false]
    rw [List.infix_cons_iff]
    rintro (h | h)
    · obtain ⟨r, hr⟩ := (EXP_prefix_iff _).1 h
      injection hr with h1 h2
      have hd : d ≠ '$' := fun h0 => hcd ⟨h1, h0⟩
      rw [expandSpec_cons_of_ne pid d rest hd] at h2
      injection h2 with h3 _
      exact hd h3
    · exact ih h

/-- A string that holds no `$$` is its own expansion. -/
theorem expandSpec_of_no_EXP (pid : List Char) (s : List Char) (h : ¬ EXP <:+: s) :
    expandSpec pid s = s := by
  induction s using expandSpec.induct pid with
  | case1 => rfl
  | case2 c => rfl
  | case3 c d rest hcd ih =>
    exfalso
    apply h
    rw [hcd.1, hcd.2]
    exact ⟨[], rest, rfl⟩
  | case4 c d rest hcd ih =>
    rw [List.infix_cons_iff, not_or] at h
    simp only [expandSpec, hcd, if_false]
    rw [ih h.2]

/-- C14: for every line and every process id, the string `expandInput` returns
holds no occurrence of `$$`, and expanding it again with the same process id
returns it unchanged. -/
theorem C14_expandInput_idempotent (processID : Nat) (s : List Char) :
    expandInput processID s = some (expandSpec (pidString processID) s) ∧
    ¬ EXP <:+: expandSpec (pidString processID) s ∧
    expandInput processID (expandSpec (pidString processID) s)
      = some (expandSpec (pidString processID) s) ∧
    (expandInput processID s).bind (expandInput processID) = expandInput processID s := by
  have h1 := expandInput_eq processID s
  have h2 := expandSpec_no_EXP (pidString processID) (pidString_no_dollar processID) s
  have h3 : expandInput processID (expandSpec (pidString processID) s)
      = some (expandSpec (pidString processID) s) := by
    rw [expandInput_eq, expandSpec_of_no_EXP _ _ h2]
  exact ⟨h1, h2, h3, by rw [h1, Option.some_bind, h3]⟩

/-- C14 on `$$$` with process id 1234: the expansion is `1234$`, which expands
to itself. -/
theorem C14_expandInput_idempotent_witness :
    expandInput 1234 "$$$".toList = some "1234$".toList ∧
    expandInput 1234 "1234$".toList = some "1234$".toList :=
  ⟨(C14_expandInput_idempotent 1234 "$$$".toList).1.trans (by decide),
   (C14_expandInput_idempotent 1234 "$$$".toList).2.2.1.trans (by decide)⟩

end Smallsh
